import Mathlib

set_option maxHeartbeats 1000000

/-!
A verification development for an N-dimensional Lattice Boltzmann (LBGK) solver.
The solver state and all operations are embedded as executable Lean definitions
over exact rational arithmetic; arrays are modelled as functions out of `ℕ`
(entries beyond the declared length are junk and are never written).
-/

/-- Boundary schemes of the lattice solver. -/
inductive BoundaryScheme where
  | Inflow
  | Outflow
  | Periodic
  | BounceBack
  | SpecularReflection
  deriving DecidableEq

/-- Lattice parameters: one discrete velocity vector and its weight. -/
structure LatticeParameters where
  lattice_vector : ℕ → ℤ
  weight : ℚ

/-- Per-cell algorithm values. -/
structure AlgorithmValues where
  distributions : ℕ → ℚ
  collision_distributions : ℕ → ℚ
  density : ℚ
  velocity_vector : ℕ → ℚ

/-- The lattice solver state: `N` spatial dimensions, `B` stencil directions.
The flat cell array and the obstacle array are functions of the flat index. -/
structure Lbgk (N B : ℕ) where
  lattice_parameters : ℕ → LatticeParameters
  sound_speed_squared : ℚ
  size : ℕ → ℕ
  boundary_schemes : ℕ → ℕ → BoundaryScheme
  source_algorithm_values : AlgorithmValues
  algorithm_values : ℕ → AlgorithmValues
  object : ℕ → Bool

/-- Vector dot product over the first `D` components (source `dot_product`). -/
def dot_product (D : ℕ) (u v : ℕ → ℚ) : ℚ := ∑ d ∈ Finset.range D, u d * v d

/-- Equilibrium distributions from density and velocity
(source `equilibrium_distributions`). -/
def equilibrium_distributions (N B : ℕ) (lattice_parameters : ℕ → LatticeParameters)
    (sound_speed_squared density : ℚ) (velocity_vector : ℕ → ℚ) : ℕ → ℚ :=
  let cs2x2 := sound_speed_squared + sound_speed_squared
  let cs4x2 := sound_speed_squared * sound_speed_squared
    + sound_speed_squared * sound_speed_squared
  let u_dot_u := dot_product N velocity_vector velocity_vector
  fun i =>
    if i < B then
      let c_dot_u := dot_product N
        (fun d => ((lattice_parameters i).lattice_vector d : ℚ)) velocity_vector
      (lattice_parameters i).weight * density *
        (1 + c_dot_u / sound_speed_squared + c_dot_u * c_dot_u / cs4x2 - u_dot_u / cs2x2)
    else 0

/-- Flat array index of a lattice position (source `index`): a left fold carrying
the partial index and the running multiplier, dimension 0 varying fastest. -/
def Lbgk.index {N B : ℕ} (st : Lbgk N B) (pos : ℕ → ℕ) : ℕ :=
  ((List.range (N - 1)).foldl
    (fun rm k => (rm.1 + rm.2 * pos (k + 1), rm.2 * st.size k))
    (pos 0, st.size 0)).1

/-- One odometer advance of `pos` in the enabled dimensions (source `next_pos`):
increment the first enabled dimension; on overflow reset it to 0 and carry. -/
def next_pos (size : ℕ → ℕ) (dims : ℕ → Bool) : List ℕ → (ℕ → ℕ) → Option (ℕ → ℕ)
  | [], _ => none
  | d :: ds, pos =>
    if dims d then
      if pos d + 1 < size d then some (Function.update pos d (pos d + 1))
      else next_pos size dims ds (Function.update pos d 0)
    else next_pos size dims ds pos

/-- The successive positions visited by a sweep loop, with fuel. -/
def sweep_list (size : ℕ → ℕ) (dims : ℕ → Bool) (N : ℕ) : ℕ → (ℕ → ℕ) → List (ℕ → ℕ)
  | 0, _ => []
  | fuel + 1, pos =>
    pos :: (match next_pos size dims (List.range N) pos with
      | none => []
      | some p => sweep_list size dims N fuel p)

/-- Total number of grid cells. -/
def Lbgk.total {N B : ℕ} (st : Lbgk N B) : ℕ := ∏ d ∈ Finset.range N, st.size d

/-- Run a per-position body over a sweep (the `loop` / `next_pos` pattern of the
source, with fuel bounding the number of visited positions). -/
def Lbgk.sweep {N B : ℕ} (st : Lbgk N B) (dims : ℕ → Bool) (start : ℕ → ℕ)
    (f : Lbgk N B → (ℕ → ℕ) → Lbgk N B) : Lbgk N B :=
  (sweep_list st.size dims N st.total start).foldl f st

/-- The per-position body of the collision phase. -/
def collision_body {N B : ℕ} (relaxation_time : ℚ) (s : Lbgk N B) (pos : ℕ → ℕ) : Lbgk N B :=
  let index := s.index pos
  if s.object index then s
  else
    let av := s.algorithm_values index
    let feq := equilibrium_distributions N B s.lattice_parameters s.sound_speed_squared
      av.density av.velocity_vector
    let av2 := { av with collision_distributions := fun i =>
      if i < B then av.distributions i - (av.distributions i - feq i) / relaxation_time
      else av.collision_distributions i }
    { s with algorithm_values := Function.update s.algorithm_values index av2 }

/-- Collision phase (source `collision_step`). -/
def Lbgk.collision_step {N B : ℕ} (st : Lbgk N B) (relaxation_time : ℚ) : Lbgk N B :=
  st.sweep (fun _ => true) (fun _ => 0) (collision_body relaxation_time)

/-- Per-dimension streaming move handling (the per-dimension `match` in the
source `streaming_step`).  Returns the new position component, the new velocity
component, the changed-vector flag and the bounce-back flag for this dimension. -/
def stream_dim (low high : BoundaryScheme) (size p : ℕ) (c : ℤ) :
    Option ℕ × ℤ × Bool × Bool :=
  let val := (p : ℤ) + c
  if val < 0 then
    match low with
    | .Periodic => (some (size - 1), c, false, false)
    | .BounceBack => (none, c, false, true)
    | .SpecularReflection => (some p, -c, true, false)
    | _ => (none, c, false, false)
  else if (size : ℤ) ≤ val then
    match high with
    | .Periodic => (some 0, c, false, false)
    | .BounceBack => (none, c, false, true)
    | .SpecularReflection => (some p, -c, true, false)
    | _ => (none, c, false, false)
  else (some val.toNat, c, false, false)

/-- Raw per-dimension streaming result for a population leaving `pos` along
direction `i`, in dimension `d`. -/
def Lbgk.stream_move {N B : ℕ} (st : Lbgk N B) (pos : ℕ → ℕ) (i d : ℕ) :
    Option ℕ × ℤ × Bool × Bool :=
  stream_dim (st.boundary_schemes d 0) (st.boundary_schemes d 1) (st.size d) (pos d)
    ((st.lattice_parameters i).lattice_vector d)

/-- Whether the raw destination exists in every dimension. -/
def Lbgk.raw_resolved {N B : ℕ} (st : Lbgk N B) (pos : ℕ → ℕ) (i : ℕ) : Bool :=
  (List.range N).all fun d => (st.stream_move pos i d).1.isSome

/-- The raw destination position (normalized: 0 beyond dimension `N`). -/
def Lbgk.raw_dest {N B : ℕ} (st : Lbgk N B) (pos : ℕ → ℕ) (i : ℕ) : ℕ → ℕ :=
  fun d => if d < N then (st.stream_move pos i d).1.getD 0 else 0

/-- Whether some dimension crossed a `BounceBack` boundary side. -/
def Lbgk.bounce_crossing {N B : ℕ} (st : Lbgk N B) (pos : ℕ → ℕ) (i : ℕ) : Bool :=
  (List.range N).any fun d => (st.stream_move pos i d).2.2.2

/-- Whether some dimension changed the velocity component (specular reflection). -/
def Lbgk.spec_changed {N B : ℕ} (st : Lbgk N B) (pos : ℕ → ℕ) (i : ℕ) : Bool :=
  (List.range N).any fun d => (st.stream_move pos i d).2.2.1

/-- Whether the resolved raw destination lands on an obstacle cell. -/
def Lbgk.obstacle_hit {N B : ℕ} (st : Lbgk N B) (pos : ℕ → ℕ) (i : ℕ) : Bool :=
  st.raw_resolved pos i && st.object (st.index (st.raw_dest pos i))

/-- The full bounce-back flag of the move (boundary crossing or obstacle hit). -/
def Lbgk.bounce_back {N B : ℕ} (st : Lbgk N B) (pos : ℕ → ℕ) (i : ℕ) : Bool :=
  st.bounce_crossing pos i || st.obstacle_hit pos i

/-- The lattice vector the population finally travels with. -/
def Lbgk.new_lattice_vector {N B : ℕ} (st : Lbgk N B) (pos : ℕ → ℕ) (i : ℕ) : ℕ → ℤ :=
  if st.bounce_back pos i then fun d => -((st.lattice_parameters i).lattice_vector d)
  else fun d => (st.stream_move pos i d).2.1

/-- The final destination position (the origin for a bounce-back move). -/
def Lbgk.new_dest {N B : ℕ} (st : Lbgk N B) (pos : ℕ → ℕ) (i : ℕ) : ℕ → ℕ :=
  if st.bounce_back pos i then (fun d => if d < N then pos d else 0)
  else st.raw_dest pos i

/-- Whether the lattice vector differs from the original direction. -/
def Lbgk.changed_lattice_vector {N B : ℕ} (st : Lbgk N B) (pos : ℕ → ℕ) (i : ℕ) : Bool :=
  st.spec_changed pos i || st.bounce_back pos i

/-- Whether the final destination exists. -/
def Lbgk.final_resolved {N B : ℕ} (st : Lbgk N B) (pos : ℕ → ℕ) (i : ℕ) : Bool :=
  st.bounce_back pos i || st.raw_resolved pos i

/-- The direction index the population lands in: looked up by lattice vector
when the vector changed (source `position` search), `i` otherwise.  `none`
models the source's unwrap failure on a stencil missing the partner vector. -/
def Lbgk.new_direction {N B : ℕ} (st : Lbgk N B) (pos : ℕ → ℕ) (i : ℕ) : Option ℕ :=
  if st.changed_lattice_vector pos i then
    (List.range B).find? fun j =>
      (List.range N).all fun d =>
        (st.lattice_parameters j).lattice_vector d == st.new_lattice_vector pos i d
  else some i

/-- Destination slot (flat cell index, direction index) that the streaming of
`(pos, i)` writes, or `none` when the move is dropped. -/
def Lbgk.write_target {N B : ℕ} (st : Lbgk N B) (pos : ℕ → ℕ) (i : ℕ) : Option (ℕ × ℕ) :=
  if st.final_resolved pos i then
    match st.new_direction pos i with
    | some j => some (st.index (st.new_dest pos i), j)
    | none => none
  else none

/-- One directional write of the streaming phase from source cell `pos`. -/
def streaming_write {N B : ℕ} (pos : ℕ → ℕ) (s' : Lbgk N B) (i : ℕ) : Lbgk N B :=
  match s'.write_target pos i with
  | none => s'
  | some (new_index, new_i) =>
    let av := s'.algorithm_values new_index
    let v := (s'.algorithm_values (s'.index pos)).collision_distributions i
    let av2 := { av with distributions := Function.update av.distributions new_i v }
    { s' with algorithm_values := Function.update s'.algorithm_values new_index av2 }

/-- The per-position body of the streaming phase. -/
def streaming_body {N B : ℕ} (s : Lbgk N B) (pos : ℕ → ℕ) : Lbgk N B :=
  if s.object (s.index pos) then s
  else (List.range B).foldl (streaming_write pos) s

/-- Streaming phase (source `streaming_step`). -/
def Lbgk.streaming_step {N B : ℕ} (st : Lbgk N B) : Lbgk N B :=
  st.sweep (fun _ => true) (fun _ => 0) streaming_body

/-- The per-position body of the derived-quantity phase. -/
def derived_body {N B : ℕ} (s : Lbgk N B) (pos : ℕ → ℕ) : Lbgk N B :=
  let index := s.index pos
  if s.object index then s
  else
    let av := s.algorithm_values index
    let density := ∑ i ∈ Finset.range B, av.distributions i
    let velocity_vector : ℕ → ℚ := fun d =>
      if d < N then
        if 0 < density then
          (∑ i ∈ Finset.range B,
            ((s.lattice_parameters i).lattice_vector d : ℚ) * av.distributions i) / density
        else 0
      else av.velocity_vector d
    let av2 := { av with density := density, velocity_vector := velocity_vector }
    { s with algorithm_values := Function.update s.algorithm_values index av2 }

/-- Derived-quantity phase (source `calculate_derived`). -/
def Lbgk.calculate_derived {N B : ℕ} (st : Lbgk N B) : Lbgk N B :=
  st.sweep (fun _ => true) (fun _ => 0) derived_body

/-- Starting position for a boundary-hyperplane sweep of side `side` of
dimension `i`. -/
def Lbgk.side_start {N B : ℕ} (st : Lbgk N B) (i side : ℕ) : ℕ → ℕ :=
  if side = 0 then fun _ => 0 else Function.update (fun _ => 0) i (st.size i - 1)

/-- The per-position body of an inflow-side sweep. -/
def inflow_body {N B : ℕ} (s : Lbgk N B) (pos : ℕ → ℕ) : Lbgk N B :=
  let av2 := Function.update s.algorithm_values (s.index pos) s.source_algorithm_values
  { s with algorithm_values := av2 }

/-- The per-position body of an outflow-side sweep. -/
def outflow_body {N B : ℕ} (i side : ℕ) (s : Lbgk N B) (pos : ℕ → ℕ) : Lbgk N B :=
  let other_pos := Function.update pos i (if side = 0 then pos i + 1 else pos i - 1)
  let av2 := Function.update s.algorithm_values (s.index pos)
    (s.algorithm_values (s.index other_pos))
  { s with algorithm_values := av2 }

/-- Handling of one boundary side in the inflow/outflow phase. -/
def Lbgk.process_side {N B : ℕ} (st : Lbgk N B) (i side : ℕ) : Lbgk N B :=
  match st.boundary_schemes i side with
  | .Inflow => st.sweep (fun d => d != i) (st.side_start i side) inflow_body
  | .Outflow => st.sweep (fun d => d != i) (st.side_start i side) (outflow_body i side)
  | _ => st

/-- Inflow/outflow maintenance phase (source `update_inflows_and_outflows`):
for each dimension, the low side then the high side. -/
def Lbgk.update_inflows_and_outflows {N B : ℕ} (st : Lbgk N B) : Lbgk N B :=
  (List.range N).foldl (fun s i => (s.process_side i 0).process_side i 1) st

/-- One full iteration (source `iterate`): collision, streaming, derived
quantities, inflow/outflow maintenance. -/
def Lbgk.iterate {N B : ℕ} (st : Lbgk N B) (relaxation_time : ℚ) : Lbgk N B :=
  (((st.collision_step relaxation_time).streaming_step).calculate_derived).update_inflows_and_outflows

/-- Density query (source `density`). -/
def Lbgk.density {N B : ℕ} (st : Lbgk N B) (pos : ℕ → ℕ) : ℚ :=
  (st.algorithm_values (st.index pos)).density

/-- Velocity-vector query (source `velocity_vector`). -/
def Lbgk.velocity_vector {N B : ℕ} (st : Lbgk N B) (pos : ℕ → ℕ) : ℕ → ℚ :=
  (st.algorithm_values (st.index pos)).velocity_vector

/-- A 2-dimensional position literal (normalized: 0 beyond dimension 2). -/
def mk_pos2 (a b : ℕ) : ℕ → ℕ :=
  fun d => if d = 0 then a else if d = 1 then b else 0

/-- Vorticity query (source `vorticity`): defined for `N = 2` only; the source
panics (`todo!` / `panic!`) for every other dimensionality, modelled as `none`. -/
def Lbgk.vorticity {N B : ℕ} (st : Lbgk N B) (pos : ℕ → ℕ) : Option ℚ :=
  if N = 2 then
    some (if (List.range 2).all (fun d => decide (1 ≤ pos d ∧ pos d < st.size d - 1)) then
      (st.velocity_vector (mk_pos2 (pos 0 + 1) (pos 1))) 1
        - (st.velocity_vector (mk_pos2 (pos 0 - 1) (pos 1))) 1
        - (st.velocity_vector (mk_pos2 (pos 0) (pos 1 + 1))) 0
        + (st.velocity_vector (mk_pos2 (pos 0) (pos 1 - 1))) 0
    else 0)
  else none

/-- Obstacle-mask write (source `set_object`). -/
def Lbgk.set_object {N B : ℕ} (st : Lbgk N B) (pos : ℕ → ℕ) (val : Bool) : Lbgk N B :=
  { st with object := Function.update st.object (st.index pos) val }

/-- D2Q9 lattice vectors (source `parameters::d2q9::C`). -/
def d2q9_C : List (List ℤ) :=
  [[0, 0], [1, 0], [0, 1], [-1, 0], [0, -1], [1, 1], [-1, 1], [-1, -1], [1, -1]]

/-- D2Q9 weights (source `parameters::d2q9::W`). -/
def d2q9_W : List ℚ :=
  [4/9, 1/9, 1/9, 1/9, 1/9, 1/36, 1/36, 1/36, 1/36]

/-- D2Q9 sound speed squared (source `parameters::d2q9::CS2`). -/
def d2q9_CS2 : ℚ := 1/3

/-- The D2Q9 lattice-parameter table (entries beyond 9 are the `Default`
filler of the source: zero vector, zero weight). -/
def d2q9_lattice_parameters : ℕ → LatticeParameters := fun i =>
  if i < 9 then
    { lattice_vector := fun d => (d2q9_C.getD i []).getD d 0, weight := d2q9_W.getD i 0 }
  else { lattice_vector := fun _ => 0, weight := 0 }

/-- Constructor for the D2Q9 model (source `new_d2q9`). -/
def new_d2q9 (size : ℕ → ℕ) (boundary_schemes : ℕ → ℕ → BoundaryScheme)
    (density : ℚ) (velocity_vector : ℕ → ℚ) : Lbgk 2 9 :=
  let distributions :=
    equilibrium_distributions 2 9 d2q9_lattice_parameters d2q9_CS2 density velocity_vector
  let source_algorithm_values : AlgorithmValues :=
    { distributions := distributions
      collision_distributions := fun _ => 0
      density := density
      velocity_vector := velocity_vector }
  { lattice_parameters := d2q9_lattice_parameters
    sound_speed_squared := d2q9_CS2
    size := size
    boundary_schemes := boundary_schemes
    source_algorithm_values := source_algorithm_values
    algorithm_values := fun _ => source_algorithm_values
    object := fun _ => false }

/-- Positions are normalized: zero in every dimension at or beyond `N`. -/
def Normalized (N : ℕ) (pos : ℕ → ℕ) : Prop := ∀ d, N ≤ d → pos d = 0

/-- A position is in bounds of the grid. -/
def Lbgk.InBounds {N B : ℕ} (st : Lbgk N B) (pos : ℕ → ℕ) : Prop :=
  ∀ d, d < N → pos d < st.size d

/-! ### Basic facts about indexing and sweeps -/

/-- For two dimensions the flat index is the usual row-major form. -/
theorem index_two {B : ℕ} (st : Lbgk 2 B) (pos : ℕ → ℕ) :
    st.index pos = pos 0 + st.size 0 * pos 1 := rfl

theorem index_two_inj {B : ℕ} (st : Lbgk 2 B) {p q : ℕ → ℕ}
    (hp0 : p 0 < st.size 0) (hq0 : q 0 < st.size 0)
    (hnp : Normalized 2 p) (hnq : Normalized 2 q)
    (h : st.index p = st.index q) : p = q := by
  rw [index_two, index_two] at h
  have h0 : p 0 = q 0 := by
    have hmp := Nat.add_mul_mod_self_left (p 0) (st.size 0) (p 1)
    have hmq := Nat.add_mul_mod_self_left (q 0) (st.size 0) (q 1)
    have := congrArg (fun t => t % st.size 0) h
    simp only [hmp, hmq] at this
    rwa [Nat.mod_eq_of_lt hp0, Nat.mod_eq_of_lt hq0] at this
  have h1 : p 1 = q 1 := by
    have hs : 0 < st.size 0 := lt_of_le_of_lt (Nat.zero_le _) hp0
    rw [h0] at h
    exact Nat.eq_of_mul_eq_mul_left hs (Nat.add_left_cancel h)
  funext d
  match d with
  | 0 => exact h0
  | 1 => exact h1
  | (n + 2) => rw [hnp (n + 2) (by omega), hnq (n + 2) (by omega)]

theorem next_pos_sound {size : ℕ → ℕ} {dims : ℕ → Bool} :
    ∀ {L : List ℕ} {pos p' : ℕ → ℕ}, (∀ d ∈ L, pos d < size d) →
      next_pos size dims L pos = some p' →
      (∀ d ∈ L, p' d < size d) ∧ (∀ d, d ∉ L → p' d = pos d) ∧
        (∀ d, dims d = false → p' d = pos d) := by
  intro L
  induction L with
  | nil => intro pos p' _ h; simp [next_pos] at h
  | cons d ds ih =>
    intro pos p' hb h
    rw [next_pos] at h
    by_cases hd : dims d
    · simp only [hd, if_true] at h
      by_cases hlt : pos d + 1 < size d
      · simp only [hlt, if_true, Option.some.injEq] at h
        subst h
        refine ⟨?_, ?_, ?_⟩
        · intro e he
          rcases List.mem_cons.mp he with rfl | he'
          · simpa [Function.update] using hlt
          · by_cases hed : e = d
            · subst hed; simpa [Function.update] using hlt
            · simpa [Function.update, hed] using hb e (List.mem_cons_of_mem _ he')
        · intro e he
          have hed : e ≠ d := fun hc => he (hc ▸ List.mem_cons_self d ds)
          simp [Function.update, hed]
        · intro e he
          have hed : e ≠ d := fun hc => by rw [hc] at he; rw [he] at hd; exact Bool.noConfusion hd
          simp [Function.update, hed]
      · simp only [hlt, if_false] at h
        have hb' : ∀ e ∈ ds, Function.update pos d 0 e < size e := by
          intro e he
          by_cases hed : e = d
          · subst hed
            have : 0 < size e := lt_of_le_of_lt (Nat.zero_le _) (hb e (List.mem_cons_self _ _))
            simpa [Function.update] using this
          · simpa [Function.update, hed] using hb e (List.mem_cons_of_mem _ he)
        obtain ⟨ha, hb2, hc2⟩ := ih hb' h
        refine ⟨?_, ?_, ?_⟩
        · intro e he
          rcases List.mem_cons.mp he with rfl | he'
          · by_cases hmem : e ∈ ds
            · exact ha e hmem
            · rw [hb2 e hmem]
              have : 0 < size e := lt_of_le_of_lt (Nat.zero_le _) (hb e (List.mem_cons_self _ _))
              simpa [Function.update] using this
          · exact ha e he'
        · intro e he
          have hed : e ≠ d := fun hc => he (hc ▸ List.mem_cons_self d ds)
          have hds : e ∉ ds := fun hc => he (List.mem_cons_of_mem _ hc)
          rw [hb2 e hds]
          simp [Function.update, hed]
        · intro e he
          have hed : e ≠ d := fun hc => by rw [hc] at he; rw [he] at hd; exact Bool.noConfusion hd
          rw [hc2 e he]
          simp [Function.update, hed]
    · simp only [Bool.not_eq_true] at hd
      simp only [hd, Bool.false_eq_true, if_false] at h
      have hb' : ∀ e ∈ ds, pos e < size e := fun e he => hb e (List.mem_cons_of_mem _ he)
      obtain ⟨ha, hb2, hc2⟩ := ih hb' h
      refine ⟨?_, ?_, ?_⟩
      · intro e he
        rcases List.mem_cons.mp he with rfl | he'
        · by_cases hmem : e ∈ ds
          · exact ha e hmem
          · rw [hb2 e hmem]; exact hb e (List.mem_cons_self _ _)
        · exact ha e he'
      · intro e he
        have hds : e ∉ ds := fun hc => he (List.mem_cons_of_mem _ hc)
        exact hb2 e hds
      · exact hc2

/-- The well-formedness invariant of positions during a sweep over the grid of
`st` with enabled-dimension mask `dims` and fixed coordinates given by `start`. -/
def SweepPos (N : ℕ) (size : ℕ → ℕ) (dims : ℕ → Bool) (start : ℕ → ℕ) (pos : ℕ → ℕ) : Prop :=
  (∀ d, d < N → pos d < size d) ∧ (∀ d, N ≤ d → pos d = 0) ∧
    (∀ d, dims d = false → pos d = start d)

theorem next_pos_sweep_pos {N : ℕ} {size : ℕ → ℕ} {dims : ℕ → Bool} {start pos p' : ℕ → ℕ}
    (hpos : SweepPos N size dims start pos)
    (h : next_pos size dims (List.range N) pos = some p') :
    SweepPos N size dims start p' := by
  obtain ⟨h1, h2, h3⟩ := hpos
  have hb : ∀ d ∈ List.range N, pos d < size d := fun d hd => h1 d (List.mem_range.mp hd)
  obtain ⟨ha, hb2, hc2⟩ := next_pos_sound hb h
  refine ⟨fun d hd => ha d (List.mem_range.mpr hd), ?_, ?_⟩
  · intro d hd
    rw [hb2 d (by simpa using Nat.not_lt.mpr hd)]
    exact h2 d hd
  · intro d hd
    rw [hc2 d hd]
    exact h3 d hd

theorem sweep_list_sound {N : ℕ} {size : ℕ → ℕ} {dims : ℕ → Bool} {start : ℕ → ℕ} :
    ∀ {fuel : ℕ} {pos : ℕ → ℕ}, SweepPos N size dims start pos →
      ∀ q ∈ sweep_list size dims N fuel pos, SweepPos N size dims start q := by
  intro fuel
  induction fuel with
  | zero => intro pos _ q hq; simp [sweep_list] at hq
  | succ n ih =>
    intro pos hpos q hq
    rw [sweep_list] at hq
    rcases List.mem_cons.mp hq with rfl | hq'
    · exact hpos
    · rcases hnp : next_pos size dims (List.range N) pos with _ | p'
      · rw [hnp] at hq'; simp at hq'
      · rw [hnp] at hq'
        exact ih (next_pos_sweep_pos hpos hnp) q hq'

/-! ### Frame facts: every phase only rewrites the cell array -/

/-- Two solver states that agree on everything but the cell values. -/
def SameShape {N B : ℕ} (a b : Lbgk N B) : Prop :=
  a.lattice_parameters = b.lattice_parameters ∧
    a.sound_speed_squared = b.sound_speed_squared ∧
    a.size = b.size ∧
    a.boundary_schemes = b.boundary_schemes ∧
    a.source_algorithm_values = b.source_algorithm_values ∧
    a.object = b.object

theorem SameShape.refl {N B : ℕ} (a : Lbgk N B) : SameShape a a :=
  ⟨rfl, rfl, rfl, rfl, rfl, rfl⟩

theorem SameShape.trans {N B : ℕ} {a b c : Lbgk N B}
    (h1 : SameShape a b) (h2 : SameShape b c) : SameShape a c := by
  obtain ⟨a1, a2, a3, a4, a5, a6⟩ := h1
  obtain ⟨b1, b2, b3, b4, b5, b6⟩ := h2
  exact ⟨a1.trans b1, a2.trans b2, a3.trans b3, a4.trans b4, a5.trans b5, a6.trans b6⟩

theorem foldl_sameshape {N B : ℕ} {α : Type} (f : Lbgk N B → α → Lbgk N B)
    (hf : ∀ s x, SameShape s (f s x)) :
    ∀ (L : List α) (s : Lbgk N B), SameShape s (L.foldl f s) := by
  intro L
  induction L with
  | nil => intro s; exact SameShape.refl s
  | cons x xs ih => intro s; exact (hf s x).trans (ih (f s x))

theorem collision_step_shape {N B : ℕ} (st : Lbgk N B) (relaxation_time : ℚ) :
    SameShape st (st.collision_step relaxation_time) := by
  apply foldl_sameshape
  intro s pos
  rw [collision_body]
  split
  · exact SameShape.refl s
  · exact ⟨rfl, rfl, rfl, rfl, rfl, rfl⟩

theorem streaming_write_shape {N B : ℕ} (pos : ℕ → ℕ) (s' : Lbgk N B) (i : ℕ) :
    SameShape s' (streaming_write pos s' i) := by
  rw [streaming_write]
  rcases s'.write_target pos i with _ | ⟨q, j⟩
  · exact SameShape.refl s'
  · exact ⟨rfl, rfl, rfl, rfl, rfl, rfl⟩

theorem streaming_step_shape {N B : ℕ} (st : Lbgk N B) :
    SameShape st st.streaming_step := by
  apply foldl_sameshape
  intro s pos
  rw [streaming_body]
  split
  · exact SameShape.refl s
  · exact foldl_sameshape _ (streaming_write_shape pos) _ _

theorem calculate_derived_shape {N B : ℕ} (st : Lbgk N B) :
    SameShape st st.calculate_derived := by
  apply foldl_sameshape
  intro s pos
  rw [derived_body]
  split
  · exact SameShape.refl s
  · exact ⟨rfl, rfl, rfl, rfl, rfl, rfl⟩

theorem process_side_shape {N B : ℕ} (st : Lbgk N B) (i side : ℕ) :
    SameShape st (st.process_side i side) := by
  rw [Lbgk.process_side]
  split
  · apply foldl_sameshape
    intro s pos
    exact ⟨rfl, rfl, rfl, rfl, rfl, rfl⟩
  · apply foldl_sameshape
    intro s pos
    exact ⟨rfl, rfl, rfl, rfl, rfl, rfl⟩
  · exact SameShape.refl st

theorem update_inflows_and_outflows_shape {N B : ℕ} (st : Lbgk N B) :
    SameShape st st.update_inflows_and_outflows := by
  apply foldl_sameshape
  intro s i
  exact (process_side_shape s i 0).trans (process_side_shape _ i 1)

theorem iterate_shape {N B : ℕ} (st : Lbgk N B) (relaxation_time : ℚ) :
    SameShape st (st.iterate relaxation_time) :=
  ((((collision_step_shape st relaxation_time).trans
    (streaming_step_shape _)).trans
      (calculate_derived_shape _)).trans
        (update_inflows_and_outflows_shape _))

/-! ### Claims about the query surface and the frame of `iterate` -/

/-- Claim C10: `iterate` mutates only the per-cell algorithm values; the
lattice parameters, the sound-speed-squared constant, the grid size, the
boundary-scheme configuration, the source reference cell state and the
obstacle mask are all exactly unchanged by a call to `iterate`. -/
theorem iterate_mutates_only_cells {N B : ℕ} (st : Lbgk N B) (relaxation_time : ℚ) :
    (st.iterate relaxation_time).lattice_parameters = st.lattice_parameters ∧
      (st.iterate relaxation_time).sound_speed_squared = st.sound_speed_squared ∧
      (st.iterate relaxation_time).size = st.size ∧
      (st.iterate relaxation_time).boundary_schemes = st.boundary_schemes ∧
      (st.iterate relaxation_time).source_algorithm_values = st.source_algorithm_values ∧
      (st.iterate relaxation_time).object = st.object := by
  obtain ⟨a, b, c, d, e, f⟩ := iterate_shape st relaxation_time
  exact ⟨a.symm, b.symm, c.symm, d.symm, e.symm, f.symm⟩

/-- Claim C9: for dimensionality other than 2 the vorticity query does not
return a value (the source fails fast with `todo!` / `panic!`). -/
theorem vorticity_unimplemented {N B : ℕ} (st : Lbgk N B) (pos : ℕ → ℕ)
    (h : N ≠ 2) : st.vorticity pos = none := by
  simp [Lbgk.vorticity, h]

/-- A sample cell state. -/
def sample_av : AlgorithmValues :=
  { distributions := fun _ => 0
    collision_distributions := fun _ => 0
    density := 1
    velocity_vector := fun _ => 0 }

/-- A small concrete three-dimensional solver state. -/
def sample_state3 : Lbgk 3 1 :=
  { lattice_parameters := fun _ => { lattice_vector := fun _ => 0, weight := 1 }
    sound_speed_squared := 1/3
    size := fun _ => 2
    boundary_schemes := fun _ _ => BoundaryScheme.Periodic
    source_algorithm_values := sample_av
    algorithm_values := fun _ => sample_av
    object := fun _ => false }

theorem vorticity_unimplemented_witness :
    (3 ≠ 2) ∧ sample_state3.vorticity (fun _ => 0) = none :=
  ⟨by decide, vorticity_unimplemented sample_state3 (fun _ => 0) (by decide)⟩

/-- A concrete three-dimensional state exhibiting the `index` fold defect. -/
def sample_state_c8 : Lbgk 3 1 :=
  { sample_state3 with size := fun d => if d = 0 then 3 else 2 }

/-- The in-bounds position (0, 1, 1). -/
def sample_pos_c8 : ℕ → ℕ := fun d => if d = 0 then 0 else if d < 3 then 1 else 0

/-- Claim C8 (failing input): on a 3×2×2 grid the source `index` fold multiplies
the running multiplier by `size[k]` while consuming `pos[k+1]`, so the position
(0, 1, 1) is mapped to 0 + 3·1 + (3·3)·1 = 12 instead of the row-major value
0 + 3·1 + (3·2)·1 = 9; 12 is not less than the cell count 3·2·2 = 12, so the
resulting flat access is out of bounds. -/
theorem index_not_row_major :
    sample_state_c8.InBounds sample_pos_c8 ∧
      sample_state_c8.index sample_pos_c8 = 12 ∧
      (∑ d ∈ Finset.range 3, sample_pos_c8 d * ∏ e ∈ Finset.range d, sample_state_c8.size e) = 9 ∧
      ¬(sample_state_c8.index sample_pos_c8 < sample_state_c8.total) := by
  refine ⟨?_, by decide, by decide, by decide⟩
  intro d hd
  interval_cases d <;> decide

/-- The interior test of `vorticity` as a proposition. -/
theorem vorticity_all_eq {B : ℕ} (st : Lbgk 2 B) (pos : ℕ → ℕ) :
    ((List.range 2).all (fun d => decide (1 ≤ pos d ∧ pos d < st.size d - 1)))
      = decide ((1 ≤ pos 0 ∧ pos 0 < st.size 0 - 1) ∧ (1 ≤ pos 1 ∧ pos 1 < st.size 1 - 1)) := by
  simp [List.range_succ, Bool.and_comm]

/-- Claim C7: in two dimensions, `vorticity` returns 0 whenever some coordinate
is 0 or its dimension's size − 1, returns the central finite difference of the
four axis-adjacent neighbours' stored velocity vectors in the interior, and
never inspects the obstacle mask. -/
theorem vorticity_two {B : ℕ} (st : Lbgk 2 B) (pos : ℕ → ℕ)
    (hin : st.InBounds pos) :
    ((pos 0 = 0 ∨ pos 0 = st.size 0 - 1 ∨ pos 1 = 0 ∨ pos 1 = st.size 1 - 1) →
      st.vorticity pos = some 0) ∧
      ((1 ≤ pos 0 ∧ pos 0 < st.size 0 - 1 ∧ 1 ≤ pos 1 ∧ pos 1 < st.size 1 - 1) →
        st.vorticity pos = some
          ((st.velocity_vector (mk_pos2 (pos 0 + 1) (pos 1))) 1
            - (st.velocity_vector (mk_pos2 (pos 0 - 1) (pos 1))) 1
            - (st.velocity_vector (mk_pos2 (pos 0) (pos 1 + 1))) 0
            + (st.velocity_vector (mk_pos2 (pos 0) (pos 1 - 1))) 0)) ∧
      (∀ ob : ℕ → Bool, ({ st with object := ob } : Lbgk 2 B).vorticity pos = st.vorticity pos) := by
  have h0 := hin 0 (by omega)
  have h1 := hin 1 (by omega)
  refine ⟨?_, ?_, ?_⟩
  · intro h
    rw [Lbgk.vorticity, if_pos rfl, vorticity_all_eq]
    rw [decide_eq_false (by omega)]
    rfl
  · intro h
    rw [Lbgk.vorticity, if_pos rfl, vorticity_all_eq]
    rw [decide_eq_true (by omega)]
    rfl
  · intro ob
    rfl

/-- A small concrete two-dimensional solver state on a 3×3 grid. -/
def sample_state2 : Lbgk 2 1 :=
  { lattice_parameters := fun _ => { lattice_vector := fun _ => 0, weight := 1 }
    sound_speed_squared := 1/3
    size := fun _ => 3
    boundary_schemes := fun _ _ => BoundaryScheme.Periodic
    source_algorithm_values := sample_av
    algorithm_values := fun _ => sample_av
    object := fun _ => false }

theorem vorticity_two_witness :
    sample_state2.InBounds (mk_pos2 1 1) ∧
      sample_state2.vorticity (mk_pos2 1 1) = some
        ((sample_state2.velocity_vector (mk_pos2 2 1)) 1
          - (sample_state2.velocity_vector (mk_pos2 0 1)) 1
          - (sample_state2.velocity_vector (mk_pos2 1 2)) 0
          + (sample_state2.velocity_vector (mk_pos2 1 0)) 0) := by
  refine ⟨?_, ?_⟩
  · intro d hd
    interval_cases d <;> decide
  · exact (vorticity_two sample_state2 (mk_pos2 1 1)
      (by intro d hd; interval_cases d <;> decide)).2.1 (by decide)

/-! ### Completeness of the odometer enumeration -/

/-- Mixed-radix rank of a position over a list of dimensions. -/
def rank_aux (size pos : ℕ → ℕ) : List ℕ → ℕ
  | [] => 0
  | d :: ds => pos d + size d * rank_aux size pos ds

theorem rank_aux_congr {size pos pos' : ℕ → ℕ} :
    ∀ {ds : List ℕ}, (∀ d ∈ ds, pos d = pos' d) →
      rank_aux size pos ds = rank_aux size pos' ds := by
  intro ds
  induction ds with
  | nil => intro _; rfl
  | cons d ds ih =>
    intro h
    rw [rank_aux, rank_aux, h d (List.mem_cons_self _ _),
      ih (fun e he => h e (List.mem_cons_of_mem _ he))]

theorem rank_aux_zero {size pos : ℕ → ℕ} :
    ∀ {ds : List ℕ}, (∀ d ∈ ds, pos d = 0) → rank_aux size pos ds = 0 := by
  intro ds
  induction ds with
  | nil => intro _; rfl
  | cons d ds ih =>
    intro h
    rw [rank_aux, h d (List.mem_cons_self _ _), ih (fun e he => h e (List.mem_cons_of_mem _ he))]
    simp

theorem rank_aux_lt {size pos : ℕ → ℕ} :
    ∀ {ds : List ℕ}, (∀ d ∈ ds, pos d < size d) →
      rank_aux size pos ds < (ds.map size).prod := by
  intro ds
  induction ds with
  | nil => intro _; simp [rank_aux]
  | cons d ds ih =>
    intro h
    rw [rank_aux, List.map_cons, List.prod_cons]
    have h1 : pos d < size d := h d (List.mem_cons_self _ _)
    have h2 : rank_aux size pos ds + 1 ≤ (ds.map size).prod :=
      ih (fun e he => h e (List.mem_cons_of_mem _ he))
    have h3 : size d * (rank_aux size pos ds + 1) ≤ size d * (ds.map size).prod :=
      Nat.mul_le_mul_left _ h2
    have h4 : size d * (rank_aux size pos ds + 1)
        = size d * rank_aux size pos ds + size d := by ring
    omega

theorem rank_aux_maxed {size pos : ℕ → ℕ} :
    ∀ {ds : List ℕ}, (∀ d ∈ ds, pos d + 1 = size d) →
      rank_aux size pos ds + 1 = (ds.map size).prod := by
  intro ds
  induction ds with
  | nil => intro _; rfl
  | cons d ds ih =>
    intro h
    rw [rank_aux, List.map_cons, List.prod_cons,
      ← ih (fun e he => h e (List.mem_cons_of_mem _ he))]
    have h1 : pos d + 1 = size d := h d (List.mem_cons_self _ _)
    have h4 : size d * (rank_aux size pos ds + 1)
        = size d * rank_aux size pos ds + size d := by ring
    omega

theorem rank_aux_inj {size p q : ℕ → ℕ} :
    ∀ {ds : List ℕ}, (∀ d ∈ ds, p d < size d) → (∀ d ∈ ds, q d < size d) →
      rank_aux size p ds = rank_aux size q ds → ∀ d ∈ ds, p d = q d := by
  intro ds
  induction ds with
  | nil => intro _ _ _ d hd; simp at hd
  | cons d ds ih =>
    intro hp hq h e he
    rw [rank_aux, rank_aux] at h
    have hpd : p d < size d := hp d (List.mem_cons_self _ _)
    have hqd : q d < size d := hq d (List.mem_cons_self _ _)
    have hmod : p d = q d := by
      have h1 := Nat.add_mul_mod_self_left (p d) (size d) (rank_aux size p ds)
      have h2 := Nat.add_mul_mod_self_left (q d) (size d) (rank_aux size q ds)
      have h3 := congrArg (fun t => t % size d) h
      simp only [h1, h2] at h3
      rwa [Nat.mod_eq_of_lt hpd, Nat.mod_eq_of_lt hqd] at h3
    have hs : 0 < size d := lt_of_le_of_lt (Nat.zero_le _) hpd
    have htail : rank_aux size p ds = rank_aux size q ds := by
      rw [hmod] at h
      exact Nat.eq_of_mul_eq_mul_left hs (Nat.add_left_cancel h)
    rcases List.mem_cons.mp he with rfl | he'
    · exact hmod
    · exact ih (fun x hx => hp x (List.mem_cons_of_mem _ hx))
        (fun x hx => hq x (List.mem_cons_of_mem _ hx)) htail e he'

theorem next_pos_rank {size : ℕ → ℕ} {dims : ℕ → Bool} :
    ∀ {L : List ℕ} {pos p' : ℕ → ℕ}, L.Nodup → (∀ d ∈ L, pos d < size d) →
      next_pos size dims L pos = some p' →
      rank_aux size p' (L.filter dims) = rank_aux size pos (L.filter dims) + 1 := by
  intro L
  induction L with
  | nil => intro pos p' _ _ h; simp [next_pos] at h
  | cons d ds ih =>
    intro pos p' hnd hb h
    have hdds : d ∉ ds := (List.nodup_cons.mp hnd).1
    have hnd' : ds.Nodup := (List.nodup_cons.mp hnd).2
    rw [next_pos] at h
    by_cases hdim : dims d
    · rw [List.filter_cons_of_pos hdim]
      simp only [hdim, if_true] at h
      by_cases hlt : pos d + 1 < size d
      · simp only [hlt, if_true, Option.some.injEq] at h
        subst h
        rw [rank_aux, rank_aux, Function.update_same]
        have hcg : rank_aux size (Function.update pos d (pos d + 1)) (ds.filter dims)
            = rank_aux size pos (ds.filter dims) := by
          apply rank_aux_congr
          intro e he
          have hms : e ∈ ds := List.mem_of_mem_filter he
          exact Function.update_noteq (ne_of_mem_of_not_mem hms hdds) _ _
        rw [hcg]
        omega
      · simp only [hlt, if_false] at h
        have hb' : ∀ e ∈ ds, Function.update pos d 0 e < size e := by
          intro e he
          have hed : e ≠ d := fun hc => hdds (hc ▸ he)
          rw [Function.update_noteq hed]
          exact hb e (List.mem_cons_of_mem _ he)
        have hih := ih hnd' hb' h
        have hpd : p' d = 0 := by
          obtain ⟨_, hfix, _⟩ := next_pos_sound hb' h
          rw [hfix d hdds, Function.update_same]
        have hcongr : rank_aux size (Function.update pos d 0) (ds.filter dims)
            = rank_aux size pos (ds.filter dims) := by
          apply rank_aux_congr
          intro e he
          have hms : e ∈ ds := List.mem_of_mem_filter he
          exact Function.update_noteq (ne_of_mem_of_not_mem hms hdds) _ _
        rw [hcongr] at hih
        rw [rank_aux, rank_aux, hpd, hih]
        have heq : pos d + 1 = size d := by
          have := hb d (List.mem_cons_self _ _)
          omega
        have h4 : size d * (rank_aux size pos (ds.filter dims) + 1)
            = size d * rank_aux size pos (ds.filter dims) + size d := by ring
        omega
    · rw [List.filter_cons_of_neg (by simpa using hdim)]
      simp only [Bool.not_eq_true] at hdim
      simp only [hdim, Bool.false_eq_true, if_false] at h
      exact ih hnd' (fun e he => hb e (List.mem_cons_of_mem _ he)) h

theorem next_pos_none_maxed {size : ℕ → ℕ} {dims : ℕ → Bool} :
    ∀ {L : List ℕ} {pos : ℕ → ℕ}, L.Nodup → (∀ d ∈ L, pos d < size d) →
      next_pos size dims L pos = none →
      ∀ d ∈ L.filter dims, pos d + 1 = size d := by
  intro L
  induction L with
  | nil => intro pos _ _ _ d hd; simp at hd
  | cons d ds ih =>
    intro pos hnd hb h
    have hdds : d ∉ ds := (List.nodup_cons.mp hnd).1
    have hnd' : ds.Nodup := (List.nodup_cons.mp hnd).2
    rw [next_pos] at h
    by_cases hdim : dims d
    · simp only [hdim, if_true] at h
      by_cases hlt : pos d + 1 < size d
      · simp [hlt] at h
      · simp only [hlt, if_false] at h
        have hb' : ∀ e ∈ ds, Function.update pos d 0 e < size e := by
          intro e he
          have hed : e ≠ d := fun hc => hdds (hc ▸ he)
          rw [Function.update_noteq hed]
          exact hb e (List.mem_cons_of_mem _ he)
        have hih := ih hnd' hb' h
        intro e he
        rw [List.filter_cons_of_pos hdim] at he
        rcases List.mem_cons.mp he with rfl | he'
        · have := hb e (List.mem_cons_self _ _)
          omega
        · have := hih e he'
          have hed : e ≠ d := fun hc => hdds (hc ▸ List.mem_of_mem_filter he')
          rwa [Function.update_noteq hed] at this
    · simp only [Bool.not_eq_true] at hdim
      simp only [hdim, Bool.false_eq_true, if_false] at h
      intro e he
      rw [List.filter_cons_of_neg (by simp [hdim])] at he
      exact ih hnd' (fun x hx => hb x (List.mem_cons_of_mem _ hx)) h e he

theorem sweep_list_complete_aux {N : ℕ} {size : ℕ → ℕ} {dims : ℕ → Bool} {start : ℕ → ℕ} :
    ∀ (fuel : ℕ) (pos target : ℕ → ℕ),
      SweepPos N size dims start pos → SweepPos N size dims start target →
      rank_aux size pos ((List.range N).filter dims)
        ≤ rank_aux size target ((List.range N).filter dims) →
      rank_aux size target ((List.range N).filter dims)
        - rank_aux size pos ((List.range N).filter dims) < fuel →
      target ∈ sweep_list size dims N fuel pos := by
  intro fuel
  induction fuel with
  | zero => intro pos target _ _ _ h; omega
  | succ n ih =>
    intro pos target hpos htarget hle hlt
    have hbp : ∀ d ∈ (List.range N).filter dims, pos d < size d := fun d hd =>
      hpos.1 d (List.mem_range.mp (List.mem_of_mem_filter hd))
    have hbt : ∀ d ∈ (List.range N).filter dims, target d < size d := fun d hd =>
      htarget.1 d (List.mem_range.mp (List.mem_of_mem_filter hd))
    rw [sweep_list]
    by_cases heq : rank_aux size pos ((List.range N).filter dims)
        = rank_aux size target ((List.range N).filter dims)
    · have hpt : pos = target := by
        funext d
        by_cases hdN : d < N
        · by_cases hdim : dims d
          · exact rank_aux_inj hbp hbt heq d
              (List.mem_filter.mpr ⟨List.mem_range.mpr hdN, hdim⟩)
          · rw [hpos.2.2 d (by simpa using hdim), htarget.2.2 d (by simpa using hdim)]
        · rw [hpos.2.1 d (by omega), htarget.2.1 d (by omega)]
      rw [hpt]
      exact List.mem_cons_self _ _
    · have hlt2 : rank_aux size pos ((List.range N).filter dims)
          < rank_aux size target ((List.range N).filter dims) := lt_of_le_of_ne hle heq
      have hbfull : ∀ d ∈ List.range N, pos d < size d := fun d hd =>
        hpos.1 d (List.mem_range.mp hd)
      rcases hnp : next_pos size dims (List.range N) pos with _ | p'
      · exfalso
        have hmax := next_pos_none_maxed (List.nodup_range N) hbfull hnp
        have h1 := @rank_aux_maxed size pos _ hmax
        have h2 := @rank_aux_lt size target _ hbt
        omega
      · have hrank := next_pos_rank (List.nodup_range N) hbfull hnp
        apply List.mem_cons_of_mem
        exact ih p' target (next_pos_sweep_pos hpos hnp) htarget (by omega) (by omega)

theorem list_map_prod_range {size : ℕ → ℕ} :
    ∀ N : ℕ, ((List.range N).map size).prod = ∏ d ∈ Finset.range N, size d := by
  intro N
  induction N with
  | zero => rfl
  | succ n ih =>
    rw [List.range_succ, List.map_append, List.prod_append, Finset.prod_range_succ, ih]
    simp

theorem list_filter_prod_le {size : ℕ → ℕ} {p : ℕ → Bool} :
    ∀ {L : List ℕ}, (∀ d ∈ L, 1 ≤ size d) →
      ((L.filter p).map size).prod ≤ (L.map size).prod := by
  intro L
  induction L with
  | nil => intro _; simp
  | cons d ds ih =>
    intro h
    have hd : 1 ≤ size d := h d (List.mem_cons_self _ _)
    have htl := ih (fun e he => h e (List.mem_cons_of_mem _ he))
    by_cases hp : p d
    · rw [List.filter_cons_of_pos hp, List.map_cons, List.map_cons,
        List.prod_cons, List.prod_cons]
      exact Nat.mul_le_mul_left _ htl
    · rw [List.filter_cons_of_neg (by simpa using hp), List.map_cons, List.prod_cons]
      calc ((ds.filter p).map size).prod ≤ (ds.map size).prod := htl
        _ ≤ size d * (ds.map size).prod := Nat.le_mul_of_pos_left _ hd

/-- The odometer enumeration reaches every position compatible with the sweep,
with `∏ size` fuel, provided the enabled coordinates of the start are 0. -/
theorem sweep_list_complete {N : ℕ} {size : ℕ → ℕ} {dims : ℕ → Bool} {start target : ℕ → ℕ}
    (hstart : SweepPos N size dims start start)
    (hstart0 : ∀ d, d < N → dims d = true → start d = 0)
    (htarget : SweepPos N size dims start target) :
    target ∈ sweep_list size dims N (∏ d ∈ Finset.range N, size d) start := by
  have hz : rank_aux size start ((List.range N).filter dims) = 0 := by
    apply rank_aux_zero
    intro d hd
    exact hstart0 d (List.mem_range.mp (List.mem_of_mem_filter hd))
      (List.of_mem_filter hd)
  apply sweep_list_complete_aux _ _ _ hstart htarget (by omega)
  rw [hz, Nat.sub_zero]
  have hbt : ∀ d ∈ (List.range N).filter dims, target d < size d := fun d hd =>
    htarget.1 d (List.mem_range.mp (List.mem_of_mem_filter hd))
  have h1 := @rank_aux_lt size target _ hbt
  have h2 : (((List.range N).filter dims).map size).prod ≤ ((List.range N).map size).prod := by
    apply list_filter_prod_le
    intro d hd
    have := hstart.1 d (List.mem_range.mp hd)
    omega
  rw [list_map_prod_range] at h2
  omega

/-! ### Generic last-write reasoning for folds of cell updates -/

theorem foldl_inv {N B : ℕ} {β : Type} (I : Lbgk N B → Prop) (f : Lbgk N B → β → Lbgk N B) :
    ∀ (L : List β) (s : Lbgk N B), (∀ s' b, b ∈ L → I s' → I (f s' b)) → I s →
      I (L.foldl f s) := by
  intro L
  induction L with
  | nil => intro s _ hs; exact hs
  | cons b bs ih =>
    intro s hI hs
    exact ih (f s b) (fun s' x hx => hI s' x (List.mem_cons_of_mem _ hx))
      (hI s b (List.mem_cons_self _ _) hs)

theorem foldl_keep {N B : ℕ} {β α : Type} (π : Lbgk N B → α)
    (I : Lbgk N B → Prop) (f : Lbgk N B → β → Lbgk N B) :
    ∀ (L : List β) (s : Lbgk N B),
      (∀ s' b, b ∈ L → I s' → I (f s' b)) → I s →
      (∀ s' b, b ∈ L → I s' → π (f s' b) = π s') →
      π (L.foldl f s) = π s := by
  intro L
  induction L with
  | nil => intro s _ _ _; rfl
  | cons b bs ih =>
    intro s hI hs hkeep
    rw [List.foldl_cons,
      ih (f s b) (fun s' x hx => hI s' x (List.mem_cons_of_mem _ hx))
        (hI s b (List.mem_cons_self _ _) hs)
        (fun s' x hx hI' => hkeep s' x (List.mem_cons_of_mem _ hx) hI')]
    exact hkeep s b (List.mem_cons_self _ _) hs

theorem foldl_stay {N B : ℕ} {β α : Type} (π : Lbgk N B → α)
    (I : Lbgk N B → Prop) (f : Lbgk N B → β → Lbgk N B) (V : α) :
    ∀ (L : List β) (s : Lbgk N B),
      (∀ s' b, b ∈ L → I s' → I (f s' b)) → I s →
      (∀ s' b, b ∈ L → I s' → π (f s' b) = π s' ∨ π (f s' b) = V) →
      π s = V → π (L.foldl f s) = V := by
  intro L
  induction L with
  | nil => intro s _ _ _ hV; exact hV
  | cons b bs ih =>
    intro s hI hs hkeep hV
    rw [List.foldl_cons]
    apply ih (f s b) (fun s' x hx => hI s' x (List.mem_cons_of_mem _ hx))
      (hI s b (List.mem_cons_self _ _) hs)
      (fun s' x hx hI' => hkeep s' x (List.mem_cons_of_mem _ hx) hI')
    rcases hkeep s b (List.mem_cons_self _ _) hs with h | h
    · rw [h, hV]
    · exact h

theorem foldl_write {N B : ℕ} {β α : Type} (π : Lbgk N B → α)
    (I : Lbgk N B → Prop) (f : Lbgk N B → β → Lbgk N B) (V : α) :
    ∀ (L : List β) (s : Lbgk N B) (b₀ : β), b₀ ∈ L →
      (∀ s' b, b ∈ L → I s' → I (f s' b)) → I s →
      (∀ s' b, b ∈ L → I s' → π (f s' b) = π s' ∨ π (f s' b) = V) →
      (∀ s', I s' → π (f s' b₀) = V) →
      π (L.foldl f s) = V := by
  intro L
  induction L with
  | nil => intro s b₀ h; simp at h
  | cons b bs ih =>
    intro s b₀ hb₀ hI hs hkeep hwrite
    rw [List.foldl_cons]
    by_cases hmem : b₀ ∈ bs
    · exact ih (f s b) b₀ hmem (fun s' x hx => hI s' x (List.mem_cons_of_mem _ hx))
        (hI s b (List.mem_cons_self _ _) hs)
        (fun s' x hx hI' => hkeep s' x (List.mem_cons_of_mem _ hx) hI') hwrite
    · have hbb : b = b₀ := by
        rcases List.mem_cons.mp hb₀ with h | h
        · exact h.symm
        · exact absurd h hmem
      subst hbb
      apply foldl_stay π I f V bs (f s b)
        (fun s' x hx => hI s' x (List.mem_cons_of_mem _ hx))
        (hI s b (List.mem_cons_self _ _) hs)
        (fun s' x hx hI' => hkeep s' x (List.mem_cons_of_mem _ hx) hI')
      exact hwrite s hs

/-- Membership of a normalized in-bounds position in the full-grid sweep. -/
theorem mem_full_sweep {N B : ℕ} (st : Lbgk N B) {pos : ℕ → ℕ}
    (hsize : ∀ d, d < N → 1 ≤ st.size d) (hin : st.InBounds pos)
    (hnorm : Normalized N pos) :
    pos ∈ sweep_list st.size (fun _ => true) N st.total (fun _ => 0) := by
  apply sweep_list_complete
  · exact ⟨fun d hd => hsize d hd, fun d _ => rfl, fun d hd => absurd hd (by simp)⟩
  · intro d _ _; rfl
  · exact ⟨fun d hd => hin d hd, fun d hd => hnorm d hd, fun d hd => absurd hd (by simp)⟩

/-! ### Characterization of the collision phase -/

theorem index_congr {N B : ℕ} {s t : Lbgk N B} (h : s.size = t.size) (pos : ℕ → ℕ) :
    s.index pos = t.index pos := by
  rw [Lbgk.index, Lbgk.index, h]

/-- The collision update of one cell, computed from the phase entry state. -/
def collide_cell {N B : ℕ} (st : Lbgk N B) (relaxation_time : ℚ) (idx : ℕ) : ℕ → ℚ :=
  let av := st.algorithm_values idx
  let feq := equilibrium_distributions N B st.lattice_parameters st.sound_speed_squared
    av.density av.velocity_vector
  fun i => if i < B then av.distributions i - (av.distributions i - feq i) / relaxation_time
    else av.collision_distributions i

/-- Invariant tying an intermediate collision state to the phase entry state. -/
def CollisionInv {N B : ℕ} (st s : Lbgk N B) : Prop :=
  SameShape st s ∧
    (∀ idx, (s.algorithm_values idx).distributions = (st.algorithm_values idx).distributions) ∧
    (∀ idx, (s.algorithm_values idx).density = (st.algorithm_values idx).density) ∧
    (∀ idx, (s.algorithm_values idx).velocity_vector
      = (st.algorithm_values idx).velocity_vector) ∧
    (∀ idx i, B ≤ i → (s.algorithm_values idx).collision_distributions i
      = (st.algorithm_values idx).collision_distributions i)

theorem collision_inv_refl {N B : ℕ} (st : Lbgk N B) : CollisionInv st st :=
  ⟨SameShape.refl st, fun _ => rfl, fun _ => rfl, fun _ => rfl, fun _ _ _ => rfl⟩

theorem collision_body_inv {N B : ℕ} {st : Lbgk N B} (τ : ℚ) (s : Lbgk N B) (pos : ℕ → ℕ)
    (hI : CollisionInv st s) : CollisionInv st (collision_body τ s pos) := by
  obtain ⟨hsh, hdist, hrho, hu, hcd⟩ := hI
  rw [collision_body]
  split
  · exact ⟨hsh, hdist, hrho, hu, hcd⟩
  · refine ⟨hsh.trans ⟨rfl, rfl, rfl, rfl, rfl, rfl⟩, ?_, ?_, ?_, ?_⟩
    · intro idx
      dsimp only
      rcases eq_or_ne idx (s.index pos) with h | h
      · subst h; rw [Function.update_same]; exact hdist _
      · rw [Function.update_noteq h]; exact hdist _
    · intro idx
      dsimp only
      rcases eq_or_ne idx (s.index pos) with h | h
      · subst h; rw [Function.update_same]; exact hrho _
      · rw [Function.update_noteq h]; exact hrho _
    · intro idx
      dsimp only
      rcases eq_or_ne idx (s.index pos) with h | h
      · subst h; rw [Function.update_same]; exact hu _
      · rw [Function.update_noteq h]; exact hu _
    · intro idx i hi
      dsimp only
      rcases eq_or_ne idx (s.index pos) with h | h
      · subst h
        rw [Function.update_same]
        have hnb : ¬ i < B := by omega
        show (if i < B then _ else (s.algorithm_values (s.index pos)).collision_distributions i) = _
        rw [if_neg hnb]
        exact hcd _ i hi
      · rw [Function.update_noteq h]; exact hcd _ i hi

theorem collision_body_write {N B : ℕ} {st : Lbgk N B} (τ : ℚ) {s : Lbgk N B} (q : ℕ → ℕ)
    (hI : CollisionInv st s) (hobj : st.object (st.index q) = false) :
    ((collision_body τ s q).algorithm_values (st.index q)).collision_distributions
      = collide_cell st τ (st.index q) := by
  obtain ⟨hsh, hdist, hrho, hu, hcd⟩ := hI
  have hidx : s.index q = st.index q := index_congr hsh.2.2.1.symm q
  have hcond : s.object (st.index q) = false := by
    rw [← hsh.2.2.2.2.2]
    exact hobj
  rw [collision_body]
  dsimp only
  simp only [hidx, hcond, Bool.false_eq_true, if_false, Function.update_same]
  funext i
  by_cases hi : i < B
  · show (if i < B then _ else _) = _
    rw [collide_cell]
    show _ = (if i < B then _ else _)
    rw [if_pos hi, if_pos hi, hdist, hrho, hu, hsh.1, hsh.2.1]
  · show (if i < B then _ else _) = _
    rw [collide_cell]
    show _ = (if i < B then _ else _)
    rw [if_neg hi, if_neg hi]
    exact hcd _ i (by omega)

theorem collision_cd_char {N B : ℕ} (st : Lbgk N B) (τ : ℚ) {pos : ℕ → ℕ}
    (hsize : ∀ d, d < N → 1 ≤ st.size d) (hin : st.InBounds pos) (hnorm : Normalized N pos)
    (hobj : st.object (st.index pos) = false) :
    ((st.collision_step τ).algorithm_values (st.index pos)).collision_distributions
      = collide_cell st τ (st.index pos) := by
  apply foldl_write (fun s => (s.algorithm_values (st.index pos)).collision_distributions)
    (CollisionInv st) (collision_body τ) (collide_cell st τ (st.index pos))
    _ st pos (mem_full_sweep st hsize hin hnorm)
  · intro s' b _ hI
    exact collision_body_inv τ s' b hI
  · exact collision_inv_refl st
  · intro s' q _ hI
    have hidx : s'.index q = st.index q := index_congr hI.1.2.2.1.symm q
    rcases hob : s'.object (s'.index q) with hfalse | htrue
    · rcases eq_or_ne (st.index q) (st.index pos) with h | h
      · right
        rw [← h]
        exact collision_body_write τ q hI (by rw [← hidx, hI.1.2.2.2.2.2]; exact hob)
      · left
        rw [collision_body]
        dsimp only
        simp only [hob, Bool.false_eq_true, if_false]
        rw [Function.update_noteq (by rw [hidx]; exact fun hc => h hc.symm)]
    · left
      rw [collision_body]
      dsimp only
      simp only [hob, if_true]
  · intro s' hI
    exact collision_body_write τ pos hI hobj

theorem collision_body_keep_fields {N B : ℕ} (τ : ℚ) (s : Lbgk N B) (q : ℕ → ℕ) (idx : ℕ) :
    ((collision_body τ s q).algorithm_values idx).distributions
        = (s.algorithm_values idx).distributions ∧
      ((collision_body τ s q).algorithm_values idx).density
        = (s.algorithm_values idx).density ∧
      ((collision_body τ s q).algorithm_values idx).velocity_vector
        = (s.algorithm_values idx).velocity_vector := by
  rw [collision_body]
  split
  · exact ⟨rfl, rfl, rfl⟩
  · dsimp only
    rcases eq_or_ne idx (s.index q) with h | h
    · subst h
      rw [Function.update_same]
      exact ⟨rfl, rfl, rfl⟩
    · rw [Function.update_noteq h]
      exact ⟨rfl, rfl, rfl⟩

theorem collision_step_keeps {N B : ℕ} (st : Lbgk N B) (τ : ℚ) (idx : ℕ) :
    ((st.collision_step τ).algorithm_values idx).distributions
        = (st.algorithm_values idx).distributions ∧
      ((st.collision_step τ).algorithm_values idx).density
        = (st.algorithm_values idx).density ∧
      ((st.collision_step τ).algorithm_values idx).velocity_vector
        = (st.algorithm_values idx).velocity_vector := by
  have h := foldl_keep
    (fun s => (((s.algorithm_values idx).distributions, (s.algorithm_values idx).density,
      (s.algorithm_values idx).velocity_vector) : (ℕ → ℚ) × ℚ × (ℕ → ℚ)))
    (fun _ => True) (collision_body τ)
    (sweep_list st.size (fun _ => true) N st.total (fun _ => 0)) st
    (fun _ _ _ _ => trivial) trivial
    (fun s' q _ _ => by
      obtain ⟨h1, h2, h3⟩ := collision_body_keep_fields τ s' q idx
      rw [Prod.mk.injEq, Prod.mk.injEq]
      exact ⟨h1, h2, h3⟩)
  rw [Prod.mk.injEq, Prod.mk.injEq] at h
  exact ⟨h.1, h.2.1, h.2.2⟩

theorem equilibrium_distributions_formula (N B : ℕ) (lp : ℕ → LatticeParameters)
    (cs2 ρ : ℚ) (u : ℕ → ℚ) {i : ℕ} (hi : i < B) :
    equilibrium_distributions N B lp cs2 ρ u i
      = (lp i).weight * ρ *
        (1 + dot_product N (fun d => ((lp i).lattice_vector d : ℚ)) u / cs2
          + dot_product N (fun d => ((lp i).lattice_vector d : ℚ)) u
            * dot_product N (fun d => ((lp i).lattice_vector d : ℚ)) u / (2 * (cs2 * cs2))
          - dot_product N u u / (2 * cs2)) := by
  rw [equilibrium_distributions]
  dsimp only
  rw [if_pos hi,
    show cs2 * cs2 + cs2 * cs2 = 2 * (cs2 * cs2) by ring,
    show cs2 + cs2 = 2 * cs2 by ring]

/-- Claim C6: for every non-obstacle cell, the collision phase sets
`collision_distributions_i = distributions_i − (distributions_i − f_eq_i) / relaxation_time`
where `f_eq_i = w_i · ρ · (1 + (c_i·u)/cs2 + (c_i·u)²/(2·cs2²) − (u·u)/(2·cs2))` is
computed from the cell's current density and velocity vector; `distributions`,
`density` and `velocity_vector` of every cell are unchanged by this phase. -/
theorem collision_step_spec {N B : ℕ} (st : Lbgk N B) (relaxation_time : ℚ) (pos : ℕ → ℕ)
    (hsize : ∀ d, d < N → 1 ≤ st.size d) (hin : st.InBounds pos) (hnorm : Normalized N pos)
    (hobj : st.object (st.index pos) = false) :
    (∀ i, i < B →
      ((st.collision_step relaxation_time).algorithm_values
          (st.index pos)).collision_distributions i
        = (st.algorithm_values (st.index pos)).distributions i
          - ((st.algorithm_values (st.index pos)).distributions i
            - (st.lattice_parameters i).weight * (st.algorithm_values (st.index pos)).density
              * (1
                + dot_product N (fun d => ((st.lattice_parameters i).lattice_vector d : ℚ))
                    (st.algorithm_values (st.index pos)).velocity_vector / st.sound_speed_squared
                + dot_product N (fun d => ((st.lattice_parameters i).lattice_vector d : ℚ))
                    (st.algorithm_values (st.index pos)).velocity_vector
                  * dot_product N (fun d => ((st.lattice_parameters i).lattice_vector d : ℚ))
                    (st.algorithm_values (st.index pos)).velocity_vector
                  / (2 * (st.sound_speed_squared * st.sound_speed_squared))
                - dot_product N (st.algorithm_values (st.index pos)).velocity_vector
                    (st.algorithm_values (st.index pos)).velocity_vector
                  / (2 * st.sound_speed_squared))) / relaxation_time) ∧
      (∀ idx, ((st.collision_step relaxation_time).algorithm_values idx).distributions
        = (st.algorithm_values idx).distributions) ∧
      (∀ idx, ((st.collision_step relaxation_time).algorithm_values idx).density
        = (st.algorithm_values idx).density) ∧
      (∀ idx, ((st.collision_step relaxation_time).algorithm_values idx).velocity_vector
        = (st.algorithm_values idx).velocity_vector) := by
  refine ⟨?_, fun idx => (collision_step_keeps st relaxation_time idx).1,
    fun idx => (collision_step_keeps st relaxation_time idx).2.1,
    fun idx => (collision_step_keeps st relaxation_time idx).2.2⟩
  intro i hi
  rw [collision_cd_char st relaxation_time hsize hin hnorm hobj, collide_cell]
  dsimp only
  rw [if_pos hi,
    equilibrium_distributions_formula N B st.lattice_parameters st.sound_speed_squared
      (st.algorithm_values (st.index pos)).density
      (st.algorithm_values (st.index pos)).velocity_vector hi]

theorem collision_step_spec_witness :
    ((sample_state2.collision_step 1).algorithm_values 0).density
      = (sample_state2.algorithm_values 0).density :=
  (collision_step_spec sample_state2 1 (mk_pos2 0 0)
    (fun _ _ => by show (1 : ℕ) ≤ 3; omega)
    (fun d hd => by interval_cases d <;> decide)
    (fun d hd => by simp only [mk_pos2]; rw [if_neg (by omega), if_neg (by omega)])
    rfl).2.2.1 0

/-! ### Which cells each phase can write -/

theorem collision_body_shape {N B : ℕ} (τ : ℚ) (s : Lbgk N B) (q : ℕ → ℕ) :
    SameShape s (collision_body τ s q) := by
  rw [collision_body]
  split
  · exact SameShape.refl s
  · exact ⟨rfl, rfl, rfl, rfl, rfl, rfl⟩

theorem streaming_body_shape {N B : ℕ} (s : Lbgk N B) (q : ℕ → ℕ) :
    SameShape s (streaming_body s q) := by
  rw [streaming_body]
  split
  · exact SameShape.refl s
  · exact foldl_sameshape _ (streaming_write_shape q) _ _

theorem derived_body_shape {N B : ℕ} (s : Lbgk N B) (q : ℕ → ℕ) :
    SameShape s (derived_body s q) := by
  rw [derived_body]
  split
  · exact SameShape.refl s
  · exact ⟨rfl, rfl, rfl, rfl, rfl, rfl⟩

theorem full_start_sweep_pos {N : ℕ} {size : ℕ → ℕ} (hsize : ∀ d, d < N → 1 ≤ size d) :
    SweepPos N size (fun _ => true) (fun _ => 0) (fun _ => 0) :=
  ⟨fun d hd => hsize d hd, fun _ _ => rfl, fun d hd => absurd hd (by simp)⟩

/-- A streaming write never lands on an obstacle cell. -/
theorem write_target_object {N B : ℕ} (s : Lbgk N B) (q : ℕ → ℕ) (i : ℕ)
    (hq : s.object (s.index q) = false) (hqn : Normalized N q) {ni nj : ℕ}
    (h : s.write_target q i = some (ni, nj)) : s.object ni = false := by
  rw [Lbgk.write_target] at h
  by_cases hfr : s.final_resolved q i
  · rw [if_pos hfr] at h
    rcases hnd : s.new_direction q i with _ | j
    · rw [hnd] at h
      exact absurd h (by simp)
    · rw [hnd] at h
      simp only [Option.some.injEq, Prod.mk.injEq] at h
      obtain ⟨hni, _⟩ := h
      by_cases hb : s.bounce_back q i
      · have hdest : s.new_dest q i = q := by
          rw [Lbgk.new_dest, if_pos hb]
          funext d
          by_cases hdN : d < N
          · rw [if_pos hdN]
          · rw [if_neg hdN, hqn d (by omega)]
        rw [← hni, hdest]
        exact hq
      · have hbfalse : s.bounce_back q i = false := by
          rcases hx : s.bounce_back q i with _ | _
          · rfl
          · exact absurd hx hb
        have hraw : s.raw_resolved q i = true := by
          rw [Lbgk.final_resolved, hbfalse] at hfr
          simpa using hfr
        have hoh : s.obstacle_hit q i = false := by
          rw [Lbgk.bounce_back] at hbfalse
          exact (Bool.or_eq_false_iff.mp hbfalse).2
        have hobj : s.object (s.index (s.raw_dest q i)) = false := by
          rw [Lbgk.obstacle_hit, hraw, Bool.true_and] at hoh
          exact hoh
        have hdest : s.new_dest q i = s.raw_dest q i := by
          rw [Lbgk.new_dest, if_neg hb]
        rw [← hni, hdest]
        exact hobj
  · rw [if_neg hfr] at h
    exact absurd h (by simp)

theorem streaming_step_obstacle_keep {N B : ℕ} (st : Lbgk N B) (idx : ℕ)
    (hsize : ∀ d, d < N → 1 ≤ st.size d) (hobj : st.object idx = true) :
    st.streaming_step.algorithm_values idx = st.algorithm_values idx := by
  apply foldl_keep (fun t => t.algorithm_values idx) (SameShape st) streaming_body _ st
  · intro s' q _ hI
    exact hI.trans (streaming_body_shape s' q)
  · exact SameShape.refl st
  · intro s' q hq hI
    rw [streaming_body]
    by_cases hob : s'.object (s'.index q)
    · rw [if_pos hob]
    · rw [if_neg hob]
      have hqprops : SweepPos N st.size (fun _ => true) (fun _ => 0) q :=
        sweep_list_sound (full_start_sweep_pos hsize) q hq
      have hqn : Normalized N q := fun d hd => hqprops.2.1 d hd
      apply foldl_keep (fun t => t.algorithm_values idx) (SameShape s') (streaming_write q) _ s'
      · intro t i _ hI2
        exact hI2.trans (streaming_write_shape q t i)
      · exact SameShape.refl s'
      · intro t i _ hI2
        rw [streaming_write]
        rcases hwt : t.write_target q i with _ | ⟨ni, nj⟩
        · rfl
        · dsimp only
          have hobt : t.object (t.index q) = false := by
            rw [index_congr hI2.2.2.1.symm, ← hI2.2.2.2.2.2]
            exact (Bool.not_eq_true _).mp hob
          have hwo := write_target_object t q i hobt hqn hwt
          have hne : ni ≠ idx := by
            intro hc
            rw [hc, ← hI2.2.2.2.2.2, ← hI.2.2.2.2.2] at hwo
            rw [hwo] at hobj
            exact Bool.noConfusion hobj
          rw [Function.update_noteq (Ne.symm hne)]

theorem collision_step_obstacle_keep {N B : ℕ} (st : Lbgk N B) (τ : ℚ) (idx : ℕ)
    (hobj : st.object idx = true) :
    (st.collision_step τ).algorithm_values idx = st.algorithm_values idx := by
  apply foldl_keep (fun t => t.algorithm_values idx) (SameShape st) (collision_body τ) _ st
  · intro s' q _ hI
    exact hI.trans (collision_body_shape τ s' q)
  · exact SameShape.refl st
  · intro s' q _ hI
    rw [collision_body]
    by_cases hob : s'.object (s'.index q)
    · rw [if_pos hob]
    · rw [if_neg hob]
      dsimp only
      have hne : s'.index q ≠ idx := by
        intro hc
        have : s'.object idx = false := by
          rw [← hc]
          exact (Bool.not_eq_true _).mp hob
        rw [← hI.2.2.2.2.2] at this
        rw [this] at hobj
        exact Bool.noConfusion hobj
      rw [Function.update_noteq (fun hc => hne hc.symm)]

theorem derived_step_obstacle_keep {N B : ℕ} (st : Lbgk N B) (idx : ℕ)
    (hobj : st.object idx = true) :
    st.calculate_derived.algorithm_values idx = st.algorithm_values idx := by
  apply foldl_keep (fun t => t.algorithm_values idx) (SameShape st) derived_body _ st
  · intro s' q _ hI
    exact hI.trans (derived_body_shape s' q)
  · exact SameShape.refl st
  · intro s' q _ hI
    rw [derived_body]
    by_cases hob : s'.object (s'.index q)
    · rw [if_pos hob]
    · rw [if_neg hob]
      dsimp only
      have hne : s'.index q ≠ idx := by
        intro hc
        have : s'.object idx = false := by
          rw [← hc]
          exact (Bool.not_eq_true _).mp hob
        rw [← hI.2.2.2.2.2] at this
        rw [this] at hobj
        exact Bool.noConfusion hobj
      rw [Function.update_noteq (fun hc => hne hc.symm)]

theorem side_start_sweep_pos {N B : ℕ} (s : Lbgk N B) (i side : ℕ) (hiN : i < N)
    (hsize : ∀ d, d < N → 1 ≤ s.size d) :
    SweepPos N s.size (fun d => d != i) (s.side_start i side) (s.side_start i side) := by
  refine ⟨?_, ?_, fun d _ => rfl⟩
  · intro d hd
    rw [Lbgk.side_start]
    by_cases hside : side = 0
    · rw [if_pos hside]
      have := hsize d hd
      omega
    · rw [if_neg hside]
      rcases eq_or_ne d i with rfl | hne
      · rw [Function.update_same]
        have := hsize d hd
        omega
      · rw [Function.update_noteq hne]
        have := hsize d hd
        omega
  · intro d hd
    rw [Lbgk.side_start]
    by_cases hside : side = 0
    · rw [if_pos hside]
    · rw [if_neg hside, Function.update_noteq (by omega)]

theorem side_start_at {N B : ℕ} (s : Lbgk N B) (i side : ℕ) :
    s.side_start i side i = if side = 0 then 0 else s.size i - 1 := by
  rw [Lbgk.side_start]
  by_cases hside : side = 0
  · rw [if_pos hside, if_pos hside]
  · rw [if_neg hside, if_neg hside, Function.update_same]

theorem side_sweep_fix {N : ℕ} {size : ℕ → ℕ} {i : ℕ} {start q : ℕ → ℕ}
    (hq : SweepPos N size (fun d => d != i) start q) : q i = start i :=
  hq.2.2 i (by simp)

theorem process_side_keep {N B : ℕ} {st : Lbgk N B} (s : Lbgk N B) (hsh : SameShape st s)
    (i side idx : ℕ) (hiN : i < N) (hsize : ∀ d, d < N → 1 ≤ st.size d)
    (h : (st.boundary_schemes i side = BoundaryScheme.Inflow ∨
        st.boundary_schemes i side = BoundaryScheme.Outflow) →
      ∀ q : ℕ → ℕ, st.InBounds q → Normalized N q →
        q i = (if side = 0 then 0 else st.size i - 1) → st.index q ≠ idx) :
    (s.process_side i side).algorithm_values idx = s.algorithm_values idx := by
  have hsize' : ∀ d, d < N → 1 ≤ s.size d := by
    intro d hd
    rw [← hsh.2.2.1]
    exact hsize d hd
  have hstart := side_start_sweep_pos s i side hiN hsize'
  have hq_ne : ∀ q : ℕ → ℕ,
      SweepPos N s.size (fun d => d != i) (s.side_start i side) q →
      (st.boundary_schemes i side = BoundaryScheme.Inflow ∨
        st.boundary_schemes i side = BoundaryScheme.Outflow) →
      st.index q ≠ idx := by
    intro q hqsp hio
    apply h hio q
    · intro d hd
      rw [hsh.2.2.1]
      exact hqsp.1 d hd
    · exact fun d hd => hqsp.2.1 d hd
    · rw [side_sweep_fix hqsp, side_start_at, hsh.2.2.1]
  rw [Lbgk.process_side]
  split
  · rename_i heq
    have hio : st.boundary_schemes i side = BoundaryScheme.Inflow ∨
        st.boundary_schemes i side = BoundaryScheme.Outflow := by
      rw [hsh.2.2.2.1]
      exact Or.inl heq
    apply foldl_keep (fun t => t.algorithm_values idx) (SameShape s) inflow_body _ s
    · intro t q _ hI
      exact hI.trans ⟨rfl, rfl, rfl, rfl, rfl, rfl⟩
    · exact SameShape.refl s
    · intro t q hq hI
      rw [inflow_body]
      dsimp only
      have hqsp := sweep_list_sound hstart q hq
      have hne : st.index q ≠ idx := hq_ne q hqsp hio
      have htidx : t.index q = st.index q :=
        index_congr ((hI.2.2.1).symm.trans hsh.2.2.1.symm) q
      have hne2 : idx ≠ t.index q := by
        rw [htidx]
        exact fun hc => hne hc.symm
      rw [Function.update_noteq hne2]
  · rename_i heq
    have hio : st.boundary_schemes i side = BoundaryScheme.Inflow ∨
        st.boundary_schemes i side = BoundaryScheme.Outflow := by
      rw [hsh.2.2.2.1]
      exact Or.inr heq
    apply foldl_keep (fun t => t.algorithm_values idx) (SameShape s) (outflow_body i side) _ s
    · intro t q _ hI
      exact hI.trans ⟨rfl, rfl, rfl, rfl, rfl, rfl⟩
    · exact SameShape.refl s
    · intro t q hq hI
      rw [outflow_body]
      dsimp only
      have hqsp := sweep_list_sound hstart q hq
      have hne : st.index q ≠ idx := hq_ne q hqsp hio
      have htidx : t.index q = st.index q :=
        index_congr ((hI.2.2.1).symm.trans hsh.2.2.1.symm) q
      have hne2 : idx ≠ t.index q := by
        rw [htidx]
        exact fun hc => hne hc.symm
      rw [Function.update_noteq hne2]
  · rfl

theorem update_inflows_keep {N B : ℕ} (st : Lbgk N B) (idx : ℕ)
    (hsize : ∀ d, d < N → 1 ≤ st.size d)
    (h : ∀ i, i < N → ∀ side, side < 2 →
      (st.boundary_schemes i side = BoundaryScheme.Inflow ∨
        st.boundary_schemes i side = BoundaryScheme.Outflow) →
      ∀ q : ℕ → ℕ, st.InBounds q → Normalized N q →
        q i = (if side = 0 then 0 else st.size i - 1) → st.index q ≠ idx) :
    st.update_inflows_and_outflows.algorithm_values idx = st.algorithm_values idx := by
  apply foldl_keep (fun t => t.algorithm_values idx) (SameShape st) _ _ st
  · intro s i _ hI
    exact hI.trans ((process_side_shape s i 0).trans (process_side_shape _ i 1))
  · exact SameShape.refl st
  · intro s i hi hI
    have hiN : i < N := List.mem_range.mp hi
    have k0 := process_side_keep s hI i 0 idx hiN hsize
      (fun hio => h i hiN 0 (by omega) hio)
    have k1 := process_side_keep (s.process_side i 0)
      (hI.trans (process_side_shape s i 0)) i 1 idx hiN hsize
      (fun hio => h i hiN 1 (by omega) hio)
    rw [k1, k0]

/-- Claim C1 (amended): an obstacle cell whose flat index is not the flat index
of any cell on an Inflow- or Outflow-configured boundary hyperplane is left
exactly unchanged by `iterate`: the collision, streaming and derived phases skip
obstacle cells, but the inflow/outflow maintenance phase does not consult the
obstacle mask, so obstacle cells on such hyperplanes are overwritten. -/
theorem iterate_obstacle_frame {N B : ℕ} (st : Lbgk N B) (relaxation_time : ℚ) (pos : ℕ → ℕ)
    (hsize : ∀ d, d < N → 1 ≤ st.size d)
    (hobj : st.object (st.index pos) = true)
    (hnotio : ∀ i, i < N → ∀ side, side < 2 →
      (st.boundary_schemes i side = BoundaryScheme.Inflow ∨
        st.boundary_schemes i side = BoundaryScheme.Outflow) →
      ∀ q : ℕ → ℕ, st.InBounds q → Normalized N q →
        q i = (if side = 0 then 0 else st.size i - 1) → st.index q ≠ st.index pos) :
    (st.iterate relaxation_time).algorithm_values (st.index pos)
      = st.algorithm_values (st.index pos) := by
  rw [Lbgk.iterate]
  have hsh1 : SameShape st (st.collision_step relaxation_time) :=
    collision_step_shape st relaxation_time
  have hsh2 : SameShape st (st.collision_step relaxation_time).streaming_step :=
    hsh1.trans (streaming_step_shape _)
  have hsh3 : SameShape st
      ((st.collision_step relaxation_time).streaming_step).calculate_derived :=
    hsh2.trans (calculate_derived_shape _)
  have e1 := collision_step_obstacle_keep st relaxation_time (st.index pos) hobj
  have e2 := streaming_step_obstacle_keep (st.collision_step relaxation_time) (st.index pos)
    (by intro d hd; rw [← hsh1.2.2.1]; exact hsize d hd)
    (by rw [← hsh1.2.2.2.2.2]; exact hobj)
  have e3 := derived_step_obstacle_keep ((st.collision_step relaxation_time).streaming_step)
    (st.index pos) (by rw [← hsh2.2.2.2.2.2]; exact hobj)
  have e4 := update_inflows_keep
    (((st.collision_step relaxation_time).streaming_step).calculate_derived) (st.index pos)
    (by intro d hd; rw [← hsh3.2.2.1]; exact hsize d hd) ?_
  · rw [e4, e3, e2, e1]
  · intro i hiN side hs hio q hinq hnq hqi
    have hms : st.size
        = (((st.collision_step relaxation_time).streaming_step).calculate_derived).size :=
      hsh3.2.2.1
    have hIn : st.InBounds q := by
      intro d hd
      rw [hms]
      exact hinq d hd
    have hio' : st.boundary_schemes i side = BoundaryScheme.Inflow ∨
        st.boundary_schemes i side = BoundaryScheme.Outflow := by
      rw [hsh3.2.2.2.1]
      exact hio
    have hqi' : q i = if side = 0 then 0 else st.size i - 1 := by
      rw [hms]
      exact hqi
    have hne := hnotio i hiN side hs hio' q hIn hnq hqi'
    rw [index_congr hms.symm q]
    exact hne

/-- A cell state with density 5 (distinct from the reference state). -/
def sample_av5 : AlgorithmValues :=
  { distributions := fun _ => 5
    collision_distributions := fun _ => 0
    density := 5
    velocity_vector := fun _ => 0 }

/-- A one-dimensional two-cell state whose low side is Inflow, with an obstacle
at cell 0 (which lies on the Inflow hyperplane) holding density 5, while the
reference state has density 1. -/
def sample_state_c1 : Lbgk 1 1 :=
  { lattice_parameters := fun _ => { lattice_vector := fun _ => 0, weight := 1 }
    sound_speed_squared := 1/3
    size := fun _ => 2
    boundary_schemes := fun _ side =>
      if side = 0 then BoundaryScheme.Inflow else BoundaryScheme.BounceBack
    source_algorithm_values := sample_av
    algorithm_values := fun idx => if idx = 0 then sample_av5 else sample_av
    object := fun idx => idx == 0 }

/-- Claim C1 (counterexample): the obstacle cell at position 0 lies on the
Inflow hyperplane; one `iterate` overwrites its stored state with the reference
state (density drops from 5 to 1), so obstacle cells are not skipped by the
inflow/outflow maintenance phase. -/
theorem iterate_overwrites_inflow_obstacle :
    sample_state_c1.object (sample_state_c1.index (fun _ => 0)) = true ∧
      (sample_state_c1.algorithm_values (sample_state_c1.index (fun _ => 0))).density = 5 ∧
      ((sample_state_c1.iterate 1).algorithm_values
        (sample_state_c1.index (fun _ => 0))).density = 1 := by
  refine ⟨rfl, rfl, ?_⟩
  decide

/-- The same state with both sides BounceBack (no inflow/outflow hyperplanes). -/
def sample_state_c1w : Lbgk 1 1 :=
  { sample_state_c1 with boundary_schemes := fun _ _ => BoundaryScheme.BounceBack }

theorem iterate_obstacle_frame_witness :
    (sample_state_c1w.iterate 1).algorithm_values (sample_state_c1w.index (fun _ => 0))
      = sample_state_c1w.algorithm_values (sample_state_c1w.index (fun _ => 0)) :=
  iterate_obstacle_frame sample_state_c1w 1 (fun _ => 0)
    (fun d _ => by show (1 : ℕ) ≤ 2; omega)
    rfl
    (fun i _ side _ hio q _ _ _ => by
      rcases hio with h | h <;> exact BoundaryScheme.noConfusion h)

/-! ### Inflow pinning (two dimensions) -/

/-- All cells on the hyperplane `q i = edge` hold the reference cell state. -/
def InflowPinned {B : ℕ} (st : Lbgk 2 B) (i edge : ℕ) (s : Lbgk 2 B) : Prop :=
  ∀ q : ℕ → ℕ, st.InBounds q → Normalized 2 q → q i = edge →
    s.algorithm_values (st.index q) = st.source_algorithm_values

theorem process_side_inflow_eq {N B : ℕ} (s : Lbgk N B) (i side : ℕ)
    (h : s.boundary_schemes i side = BoundaryScheme.Inflow) :
    s.process_side i side = s.sweep (fun d => d != i) (s.side_start i side) inflow_body := by
  rw [Lbgk.process_side, h]

theorem process_side_establishes_pin {B : ℕ} {st : Lbgk 2 B} (s : Lbgk 2 B)
    (hsh : SameShape st s) (i side : ℕ) (hiN : i < 2) (_hside : side < 2)
    (hsize : ∀ d, d < 2 → 1 ≤ st.size d)
    (hsch : st.boundary_schemes i side = BoundaryScheme.Inflow) :
    InflowPinned st i (if side = 0 then 0 else st.size i - 1) (s.process_side i side) := by
  intro q hinq hnq hqi
  have hssch : s.boundary_schemes i side = BoundaryScheme.Inflow := by
    rw [← hsh.2.2.2.1]
    exact hsch
  have hsize' : ∀ d, d < 2 → 1 ≤ s.size d := by
    intro d hd
    rw [← hsh.2.2.1]
    exact hsize d hd
  rw [process_side_inflow_eq s i side hssch]
  apply foldl_write (fun t => t.algorithm_values (st.index q)) (SameShape st) inflow_body
    st.source_algorithm_values _ s q ?hmem
  · intro t x _ hI
    exact hI.trans ⟨rfl, rfl, rfl, rfl, rfl, rfl⟩
  · exact hsh
  · intro t x _ hI
    rw [inflow_body]
    dsimp only
    have htidx : t.index x = st.index x := index_congr (hI.2.2.1.symm) x
    rcases eq_or_ne (st.index x) (st.index q) with he | hne
    · right
      rw [htidx, he, Function.update_same, ← hI.2.2.2.2.1]
    · left
      rw [htidx, Function.update_noteq (Ne.symm hne)]
  · intro t hI
    rw [inflow_body]
    dsimp only
    have htidx : t.index q = st.index q := index_congr (hI.2.2.1.symm) q
    rw [htidx, Function.update_same, ← hI.2.2.2.2.1]
  case hmem =>
    apply sweep_list_complete (side_start_sweep_pos s i side hiN hsize')
    · intro d _ hdim
      rw [Lbgk.side_start]
      by_cases hs0 : side = 0
      · rw [if_pos hs0]
      · rw [if_neg hs0, Function.update_noteq]
        intro hc
        subst hc
        simp at hdim
    · refine ⟨?_, ?_, ?_⟩
      · intro d hd
        have := hinq d hd
        rwa [hsh.2.2.1] at this
      · exact fun d hd => hnq d hd
      · intro d hdim
        have hdi : d = i := by simpa using hdim
        subst hdi
        rw [side_start_at, hqi, hsh.2.2.1]

theorem inflow_body_pin {B : ℕ} {st : Lbgk 2 B} (i edge : ℕ) (t : Lbgk 2 B)
    (ht : SameShape st t) (hP : InflowPinned st i edge t) (x : ℕ → ℕ) :
    InflowPinned st i edge (inflow_body t x) := by
  intro q hinq hnq hqi
  rw [inflow_body]
  dsimp only
  rcases eq_or_ne (st.index q) (t.index x) with he | hne
  · rw [he, Function.update_same, ← ht.2.2.2.2.1]
  · rw [Function.update_noteq hne]
    exact hP q hinq hnq hqi

theorem outflow_body_pin {B : ℕ} {st : Lbgk 2 B} (i edge j side' : ℕ) (hj : j < 2)
    (hsize : ∀ d, d < 2 → 2 ≤ st.size d)
    (hdiff : j = i → (if side' = 0 then 0 else st.size j - 1) ≠ edge)
    (t : Lbgk 2 B) (ht : SameShape st t) (hP : InflowPinned st i edge t)
    (x : ℕ → ℕ) (hx_in : st.InBounds x) (hx_n : Normalized 2 x)
    (hx_j : x j = (if side' = 0 then 0 else st.size j - 1)) :
    InflowPinned st i edge (outflow_body j side' t x) := by
  intro q hinq hnq hqi
  rw [outflow_body]
  dsimp only
  have htidx : ∀ r, t.index r = st.index r := fun r => index_congr (ht.2.2.1.symm) r
  rcases eq_or_ne (t.index x) (st.index q) with he | hne
  · have hxq : x = q := by
      apply index_two_inj st (hx_in 0 (by omega)) (hinq 0 (by omega)) hx_n hnq
      rw [← htidx x, he]
    by_cases hji : j = i
    · exact absurd (by rw [← hx_j, hxq, hji, hqi]) (hdiff hji)
    · rw [he, Function.update_same, htidx]
      apply hP
      · intro d hd
        rcases eq_or_ne d j with rfl | hdj
        · rw [Function.update_same]
          have hs2 := hsize d hd
          by_cases hs0 : side' = 0
          · rw [if_pos hs0]
            rw [if_pos hs0] at hx_j
            omega
          · rw [if_neg hs0]
            rw [if_neg hs0] at hx_j
            omega
        · rw [Function.update_noteq hdj]
          exact hx_in d hd
      · intro d hd
        rw [Function.update_noteq (by omega)]
        exact hx_n d hd
      · rw [Function.update_noteq (Ne.symm hji), hxq, hqi]
  · rw [Function.update_noteq (Ne.symm hne)]
    exact hP q hinq hnq hqi

theorem process_side_pin {B : ℕ} {st : Lbgk 2 B} (s : Lbgk 2 B) (hsh : SameShape st s)
    (i edge j side' : ℕ) (hj : j < 2)
    (hsize : ∀ d, d < 2 → 2 ≤ st.size d)
    (hdiff : j = i → (if side' = 0 then 0 else st.size j - 1) ≠ edge)
    (hP : InflowPinned st i edge s) :
    InflowPinned st i edge (s.process_side j side') := by
  have hsize' : ∀ d, d < 2 → 1 ≤ s.size d := by
    intro d hd
    rw [← hsh.2.2.1]
    have := hsize d hd
    omega
  rw [Lbgk.process_side]
  split
  · exact (foldl_inv (fun t => SameShape st t ∧ InflowPinned st i edge t) inflow_body _ s
      (fun t x _ hI => ⟨hI.1.trans ⟨rfl, rfl, rfl, rfl, rfl, rfl⟩,
        inflow_body_pin i edge t hI.1 hI.2 x⟩) ⟨hsh, hP⟩).2
  · have hstart := side_start_sweep_pos s j side' hj hsize'
    refine (foldl_inv (fun t => SameShape st t ∧ InflowPinned st i edge t)
      (outflow_body j side') _ s ?_ ⟨hsh, hP⟩).2
    intro t x hx hI
    have hxsp := sweep_list_sound hstart x hx
    refine ⟨hI.1.trans ⟨rfl, rfl, rfl, rfl, rfl, rfl⟩, ?_⟩
    apply outflow_body_pin i edge j side' hj hsize hdiff t hI.1 hI.2 x
    · intro d hd
      rw [hsh.2.2.1]
      exact hxsp.1 d hd
    · exact fun d hd => hxsp.2.1 d hd
    · rw [side_sweep_fix hxsp, side_start_at, hsh.2.2.1]
  · exact hP

theorem update_pins {B : ℕ} (st : Lbgk 2 B) (i side : ℕ) (hiN : i < 2) (hside : side < 2)
    (hsize : ∀ d, d < 2 → 2 ≤ st.size d)
    (hsch : st.boundary_schemes i side = BoundaryScheme.Inflow) :
    InflowPinned st i (if side = 0 then 0 else st.size i - 1)
      st.update_inflows_and_outflows := by
  have hsize1 : ∀ d, d < 2 → 1 ≤ st.size d := by
    intro d hd
    have := hsize d hd
    omega
  rw [Lbgk.update_inflows_and_outflows, show List.range 2 = [0, 1] from rfl]
  simp only [List.foldl_cons, List.foldl_nil]
  interval_cases i <;> interval_cases side
  · have e := process_side_establishes_pin st (SameShape.refl st) 0 0 (by omega) (by omega)
      hsize1 hsch
    have sh1 := process_side_shape st 0 0
    have p1 := process_side_pin (st.process_side 0 0) sh1 0 _ 0 1 (by omega) hsize
      (fun _ => by have h2 := hsize 0 (by omega); simp; omega) e
    have sh2 := sh1.trans (process_side_shape _ 0 1)
    have p2 := process_side_pin _ sh2 0 _ 1 0 (by omega) hsize
      (fun h => absurd h (by omega)) p1
    have sh3 := sh2.trans (process_side_shape _ 1 0)
    exact process_side_pin _ sh3 0 _ 1 1 (by omega) hsize
      (fun h => absurd h (by omega)) p2
  · have sh1 := process_side_shape st 0 0
    have e := process_side_establishes_pin (st.process_side 0 0) sh1 0 1 (by omega) (by omega)
      hsize1 hsch
    have sh2 := sh1.trans (process_side_shape _ 0 1)
    have p2 := process_side_pin _ sh2 0 _ 1 0 (by omega) hsize
      (fun h => absurd h (by omega)) e
    have sh3 := sh2.trans (process_side_shape _ 1 0)
    exact process_side_pin _ sh3 0 _ 1 1 (by omega) hsize
      (fun h => absurd h (by omega)) p2
  · have sh1 := process_side_shape st 0 0
    have sh2 := sh1.trans (process_side_shape _ 0 1)
    have e := process_side_establishes_pin _ sh2 1 0 (by omega) (by omega) hsize1 hsch
    have sh3 := sh2.trans (process_side_shape _ 1 0)
    exact process_side_pin _ sh3 1 _ 1 1 (by omega) hsize
      (fun _ => by have h2 := hsize 1 (by omega); simp; omega) e
  · have sh1 := process_side_shape st 0 0
    have sh2 := sh1.trans (process_side_shape _ 0 1)
    have sh3 := sh2.trans (process_side_shape _ 1 0)
    exact process_side_establishes_pin _ sh3 1 1 (by omega) (by omega) hsize1 hsch

/-- The state built by the D2Q9 constructor with an arbitrary obstacle mask
installed afterwards (via repeated `set_object` writes, here given as a whole). -/
def c2_state (size : ℕ → ℕ) (schemes : ℕ → ℕ → BoundaryScheme) (ρ : ℚ) (u : ℕ → ℚ)
    (ob : ℕ → Bool) : Lbgk 2 9 :=
  { new_d2q9 size schemes ρ u with object := ob }

/-- Repeated driver calls of `iterate`, one relaxation time per tick. -/
def Lbgk.iterate_list {N B : ℕ} (st : Lbgk N B) (τs : List ℚ) : Lbgk N B :=
  τs.foldl (fun s τ => s.iterate τ) st

/-- Claim C2: for any boundary configuration with an Inflow side, any obstacle
mask and any number of `iterate` calls, every cell on that Inflow hyperplane has
density and velocity vector exactly equal to the constructor's initial values. -/
theorem inflow_pinning (size : ℕ → ℕ) (schemes : ℕ → ℕ → BoundaryScheme) (ρ : ℚ)
    (u : ℕ → ℚ) (ob : ℕ → Bool) (τs : List ℚ) (i side : ℕ)
    (hiN : i < 2) (hside : side < 2)
    (hsize : ∀ d, d < 2 → 2 ≤ size d)
    (hsch : schemes i side = BoundaryScheme.Inflow)
    (pos : ℕ → ℕ) (hin : ∀ d, d < 2 → pos d < size d) (hnorm : Normalized 2 pos)
    (hpos : pos i = (if side = 0 then 0 else size i - 1)) :
    (((c2_state size schemes ρ u ob).iterate_list τs).algorithm_values
        (((c2_state size schemes ρ u ob).iterate_list τs).index pos)).density = ρ ∧
      (((c2_state size schemes ρ u ob).iterate_list τs).algorithm_values
        (((c2_state size schemes ρ u ob).iterate_list τs).index pos)).velocity_vector = u := by
  induction τs using List.reverseRecOn with
  | nil => exact ⟨rfl, rfl⟩
  | append_singleton l τ _ =>
    rw [Lbgk.iterate_list, List.foldl_append, List.foldl_cons, List.foldl_nil]
    rw [show List.foldl (fun s τ => s.iterate τ) (c2_state size schemes ρ u ob) l
      = (c2_state size schemes ρ u ob).iterate_list l from rfl]
    have hshm : SameShape (c2_state size schemes ρ u ob)
        ((c2_state size schemes ρ u ob).iterate_list l) :=
      foldl_sameshape _ (fun s τ => iterate_shape s τ) l _
    rw [Lbgk.iterate]
    have hsh3 : SameShape (c2_state size schemes ρ u ob)
        (((((c2_state size schemes ρ u ob).iterate_list l).collision_step
          τ).streaming_step).calculate_derived) :=
      ((hshm.trans (collision_step_shape _ τ)).trans (streaming_step_shape _)).trans
        (calculate_derived_shape _)
    have hsz3 : size
        = (((((c2_state size schemes ρ u ob).iterate_list l).collision_step
          τ).streaming_step).calculate_derived).size := hsh3.2.2.1
    have hpin := update_pins
      (((((c2_state size schemes ρ u ob).iterate_list l).collision_step
        τ).streaming_step).calculate_derived) i side hiN hside
      (by intro d hd; rw [← hsz3]; exact hsize d hd)
      (by rw [← hsh3.2.2.2.1]; exact hsch)
    have hcell := hpin pos
      (by intro d hd; rw [← hsz3]; exact hin d hd)
      hnorm
      (by rw [← hsz3]; exact hpos)
    have hidx : (((((c2_state size schemes ρ u ob).iterate_list l).collision_step
          τ).streaming_step).calculate_derived).update_inflows_and_outflows.index pos
        = (((((c2_state size schemes ρ u ob).iterate_list l).collision_step
          τ).streaming_step).calculate_derived).index pos :=
      index_congr (update_inflows_and_outflows_shape _).2.2.1.symm pos
    rw [hidx, hcell, ← hsh3.2.2.2.2.1]
    exact ⟨rfl, rfl⟩

/-- Boundary schemes with an Inflow on the low side of dimension 0. -/
def c2w_schemes : ℕ → ℕ → BoundaryScheme := fun d s =>
  if d = 0 then (if s = 0 then BoundaryScheme.Inflow else BoundaryScheme.Periodic)
  else BoundaryScheme.Periodic

theorem inflow_pinning_witness :
    (((c2_state (fun _ => 2) c2w_schemes 1 (fun _ => 0) (fun _ => false)).iterate_list
        [1]).algorithm_values
      (((c2_state (fun _ => 2) c2w_schemes 1 (fun _ => 0) (fun _ => false)).iterate_list
        [1]).index (mk_pos2 0 1))).density = 1 :=
  (inflow_pinning (fun _ => 2) c2w_schemes 1 (fun _ => 0) (fun _ => false) [1] 0 0
    (by omega) (by omega) (fun _ _ => le_refl 2) rfl (mk_pos2 0 1)
    (fun d hd => by interval_cases d <;> decide)
    (fun d hd => by simp only [mk_pos2]; rw [if_neg (by omega), if_neg (by omega)])
    rfl).1

/-! ### Per-dimension characterization of streaming moves -/

theorem stream_dim_char (low high : BoundaryScheme) (size p : ℕ) (c : ℤ) :
    (0 ≤ (p:ℤ) + c ∧ (p:ℤ) + c < (size:ℤ) ∧
      stream_dim low high size p c = (some ((p:ℤ) + c).toNat, c, false, false)) ∨
    ((p:ℤ) + c < 0 ∧ low = BoundaryScheme.Periodic ∧
      stream_dim low high size p c = (some (size - 1), c, false, false)) ∨
    ((p:ℤ) + c < 0 ∧ low = BoundaryScheme.BounceBack ∧
      stream_dim low high size p c = (none, c, false, true)) ∨
    ((p:ℤ) + c < 0 ∧ low = BoundaryScheme.SpecularReflection ∧
      stream_dim low high size p c = (some p, -c, true, false)) ∨
    ((p:ℤ) + c < 0 ∧ (low = BoundaryScheme.Inflow ∨ low = BoundaryScheme.Outflow) ∧
      stream_dim low high size p c = (none, c, false, false)) ∨
    ((size:ℤ) ≤ (p:ℤ) + c ∧ high = BoundaryScheme.Periodic ∧
      stream_dim low high size p c = (some 0, c, false, false)) ∨
    ((size:ℤ) ≤ (p:ℤ) + c ∧ high = BoundaryScheme.BounceBack ∧
      stream_dim low high size p c = (none, c, false, true)) ∨
    ((size:ℤ) ≤ (p:ℤ) + c ∧ high = BoundaryScheme.SpecularReflection ∧
      stream_dim low high size p c = (some p, -c, true, false)) ∨
    ((size:ℤ) ≤ (p:ℤ) + c ∧ (high = BoundaryScheme.Inflow ∨ high = BoundaryScheme.Outflow) ∧
      stream_dim low high size p c = (none, c, false, false)) := by
  by_cases h1 : (p:ℤ) + c < 0
  · rcases low with _ | _ | _ | _ | _
    · exact Or.inr (Or.inr (Or.inr (Or.inr (Or.inl
        ⟨h1, Or.inl rfl, by simp [stream_dim, h1]⟩))))
    · exact Or.inr (Or.inr (Or.inr (Or.inr (Or.inl
        ⟨h1, Or.inr rfl, by simp [stream_dim, h1]⟩))))
    · exact Or.inr (Or.inl ⟨h1, rfl, by simp [stream_dim, h1]⟩)
    · exact Or.inr (Or.inr (Or.inl ⟨h1, rfl, by simp [stream_dim, h1]⟩))
    · exact Or.inr (Or.inr (Or.inr (Or.inl ⟨h1, rfl, by simp [stream_dim, h1]⟩)))
  · by_cases h2 : (size:ℤ) ≤ (p:ℤ) + c
    · rcases high with _ | _ | _ | _ | _
      · refine Or.inr (Or.inr (Or.inr (Or.inr (Or.inr (Or.inr (Or.inr (Or.inr
          ⟨h2, Or.inl rfl, ?_⟩)))))))
        simp [stream_dim, h1, h2]
      · refine Or.inr (Or.inr (Or.inr (Or.inr (Or.inr (Or.inr (Or.inr (Or.inr
          ⟨h2, Or.inr rfl, ?_⟩)))))))
        simp [stream_dim, h1, h2]
      · exact Or.inr (Or.inr (Or.inr (Or.inr (Or.inr (Or.inl
          ⟨h2, rfl, by simp [stream_dim, h1, h2]⟩)))))
      · exact Or.inr (Or.inr (Or.inr (Or.inr (Or.inr (Or.inr (Or.inl
          ⟨h2, rfl, by simp [stream_dim, h1, h2]⟩))))))
      · exact Or.inr (Or.inr (Or.inr (Or.inr (Or.inr (Or.inr (Or.inr (Or.inl
          ⟨h2, rfl, by simp [stream_dim, h1, h2]⟩)))))))
    · exact Or.inl ⟨by omega, by omega, by simp [stream_dim, h1, h2]⟩

/-! ### Bounce-back reflection (claim C5) -/

/-- The D2Q9 index of the negated lattice vector. -/
def d2q9_neg : ℕ → ℕ := fun i => [0, 3, 4, 1, 2, 7, 8, 5, 6].getD i 0

theorem d2q9_neg_find {i : ℕ} (hi : i < 9) :
    ((List.range 9).find? fun j => (List.range 2).all fun d =>
        (d2q9_lattice_parameters j).lattice_vector d
          == -((d2q9_lattice_parameters i).lattice_vector d))
      = some (d2q9_neg i) := by
  interval_cases i <;> decide

theorem d2q9_neg_vec {i : ℕ} (hi : i < 9) : ∀ d, d < 2 →
    (d2q9_lattice_parameters (d2q9_neg i)).lattice_vector d
      = -((d2q9_lattice_parameters i).lattice_vector d) := by
  interval_cases i <;> (intro d hd; interval_cases d <;> decide)

/-- Claim C5: a streaming move that crosses a BounceBack boundary side, or whose
(possibly adjusted) destination exists and is an obstacle cell, writes the source
cell's post-collision population for direction `i` back into the origin cell's
distributions, at the stencil index whose lattice vector is the full negation of
direction `i`'s vector. -/
theorem streaming_reflection (st : Lbgk 2 9)
    (hlp : st.lattice_parameters = d2q9_lattice_parameters)
    (p : ℕ → ℕ) (hnorm : Normalized 2 p) (i : ℕ) (hi : i < 9)
    (hrefl : st.bounce_crossing p i = true ∨
      (st.raw_resolved p i = true ∧ st.object (st.index (st.raw_dest p i)) = true)) :
    st.write_target p i = some (st.index p, d2q9_neg i) ∧
      (∀ d, d < 2 → (st.lattice_parameters (d2q9_neg i)).lattice_vector d
        = -((st.lattice_parameters i).lattice_vector d)) ∧
      ((streaming_write p st i).algorithm_values (st.index p)).distributions
        = Function.update (st.algorithm_values (st.index p)).distributions (d2q9_neg i)
            ((st.algorithm_values (st.index p)).collision_distributions i) := by
  have hbb : st.bounce_back p i = true := by
    rw [Lbgk.bounce_back]
    rcases hrefl with h | ⟨h1, h2⟩
    · rw [h, Bool.true_or]
    · rw [Lbgk.obstacle_hit, h1, h2, Bool.and_self, Bool.or_true]
  have hdest : st.new_dest p i = p := by
    rw [Lbgk.new_dest, if_pos hbb]
    funext d
    by_cases hd : d < 2
    · rw [if_pos hd]
    · rw [if_neg hd, hnorm d (by omega)]
  have hch : st.changed_lattice_vector p i = true := by
    rw [Lbgk.changed_lattice_vector, hbb, Bool.or_true]
  have hnlv : st.new_lattice_vector p i
      = fun d => -((d2q9_lattice_parameters i).lattice_vector d) := by
    rw [Lbgk.new_lattice_vector, if_pos hbb, hlp]
  have hnd : st.new_direction p i = some (d2q9_neg i) := by
    rw [Lbgk.new_direction, hch, if_pos rfl, hnlv, hlp]
    simp only []
    exact d2q9_neg_find hi
  have hfr : st.final_resolved p i = true := by
    rw [Lbgk.final_resolved, hbb, Bool.true_or]
  have hwt : st.write_target p i = some (st.index p, d2q9_neg i) := by
    rw [Lbgk.write_target, hfr, if_pos rfl, hnd, hdest]
  refine ⟨hwt, ?_, ?_⟩
  · rw [hlp]
    exact d2q9_neg_vec hi
  · rw [streaming_write, hwt]
    dsimp only
    rw [Function.update_same]

/-- A D2Q9 state with BounceBack on every side. -/
def c5_state : Lbgk 2 9 :=
  new_d2q9 (fun _ => 2) (fun _ _ => BoundaryScheme.BounceBack) 1 (fun _ => 0)

theorem streaming_reflection_witness :
    c5_state.write_target (mk_pos2 1 1) 1 = some (c5_state.index (mk_pos2 1 1), d2q9_neg 1) :=
  (streaming_reflection c5_state rfl (mk_pos2 1 1)
    (fun d hd => by simp only [mk_pos2]; rw [if_neg (by omega), if_neg (by omega)])
    1 (by omega) (Or.inl (by decide))).1

/-! ### Streaming write-slot injectivity (claim C4) -/

/-- Per-dimension homogeneity of periodicity: the two sides of a dimension are
either both Periodic or both non-Periodic. -/
def PeriodicHom {B : ℕ} (st : Lbgk 2 B) : Prop :=
  ∀ d, d < 2 →
    ((st.boundary_schemes d 0 = BoundaryScheme.Periodic) ↔
      (st.boundary_schemes d 1 = BoundaryScheme.Periodic))

/-- Mixed Periodic/BounceBack sides in dimension 0 (all Periodic in dimension 1). -/
def c4_schemes : ℕ → ℕ → BoundaryScheme := fun d s =>
  if d = 0 then (if s = 0 then BoundaryScheme.Periodic else BoundaryScheme.BounceBack)
  else BoundaryScheme.Periodic

/-- A 2×2 D2Q9 state with mixed Periodic/BounceBack sides in dimension 0. -/
def c4_state : Lbgk 2 9 := new_d2q9 (fun _ => 2) c4_schemes 1 (fun _ => 0)

/-- Claim C4 (counterexample): with low side Periodic and high side BounceBack in
dimension 0, the bounce-back of cell (1,0) in direction 1 and the periodic wrap
of cell (0,0) in direction 3 write the same destination slot (cell (1,0),
direction 3), although the source pairs are distinct and both sources are
non-obstacle cells. -/
theorem streaming_write_conflict :
    c4_state.write_target (mk_pos2 1 0) 1 = some (c4_state.index (mk_pos2 1 0), 3) ∧
      c4_state.write_target (mk_pos2 0 0) 3 = some (c4_state.index (mk_pos2 1 0), 3) ∧
      c4_state.object (c4_state.index (mk_pos2 1 0)) = false ∧
      c4_state.object (c4_state.index (mk_pos2 0 0)) = false ∧
      c4_state.InBounds (mk_pos2 1 0) ∧ c4_state.InBounds (mk_pos2 0 0) ∧
      ¬(c4_state.index (mk_pos2 1 0) = c4_state.index (mk_pos2 0 0) ∧ (1 : ℕ) = 3) := by
  refine ⟨by decide, by decide, rfl, rfl, ?_, ?_, fun h => absurd h.2 (by decide)⟩
  · intro d hd
    interval_cases d <;> decide
  · intro d hd
    interval_cases d <;> decide

/-- Unadjusted per-dimension advance: direct move or a periodic wrap. -/
def URel (low high : BoundaryScheme) (size pd : ℕ) (c : ℤ) (qd : ℕ) : Prop :=
  (0 ≤ (pd:ℤ) + c ∧ (pd:ℤ) + c < (size:ℤ) ∧ (qd:ℤ) = (pd:ℤ) + c) ∨
  ((pd:ℤ) + c < 0 ∧ low = BoundaryScheme.Periodic ∧ qd = size - 1) ∨
  ((size:ℤ) ≤ (pd:ℤ) + c ∧ high = BoundaryScheme.Periodic ∧ qd = 0)

/-- Per-dimension crossing of a SpecularReflection side. -/
def SRel (low high : BoundaryScheme) (size pd : ℕ) (c : ℤ) : Prop :=
  ((pd:ℤ) + c < 0 ∧ low = BoundaryScheme.SpecularReflection) ∨
  ((size:ℤ) ≤ (pd:ℤ) + c ∧ high = BoundaryScheme.SpecularReflection)

/-- Per-dimension crossing of a BounceBack side. -/
def BBRel (low high : BoundaryScheme) (size pd : ℕ) (c : ℤ) : Prop :=
  ((pd:ℤ) + c < 0 ∧ low = BoundaryScheme.BounceBack) ∨
  ((size:ℤ) ≤ (pd:ℤ) + c ∧ high = BoundaryScheme.BounceBack)

theorem urel_inj {low high : BoundaryScheme} {size pd pd' qd : ℕ} {c : ℤ}
    (hc : -1 ≤ c ∧ c ≤ 1) (hp : pd < size) (hp' : pd' < size)
    (hu : URel low high size pd c qd) (hu' : URel low high size pd' c qd) : pd = pd' := by
  rcases hu with ⟨h1, h2, h3⟩ | ⟨h1, h2, h3⟩ | ⟨h1, h2, h3⟩ <;>
    rcases hu' with ⟨g1, g2, g3⟩ | ⟨g1, g2, g3⟩ | ⟨g1, g2, g3⟩ <;> omega

theorem urel_srel_ghost {low high : BoundaryScheme} {size pd qd : ℕ} {c : ℤ}
    (hhom : low = BoundaryScheme.Periodic ↔ high = BoundaryScheme.Periodic)
    (hc : -1 ≤ c ∧ c ≤ 1) (hp : pd < size)
    (hu : URel low high size pd c qd) (hs : SRel low high size qd (-c)) : False := by
  rcases hu with ⟨h1, h2, h3⟩ | ⟨h1, h2, h3⟩ | ⟨h1, h2, h3⟩ <;>
    rcases hs with ⟨g1, g2⟩ | ⟨g1, g2⟩
  · omega
  · omega
  · omega
  · have hper := hhom.mp h2
    rw [hper] at g2
    exact BoundaryScheme.noConfusion g2
  · have hper := hhom.mpr h2
    rw [hper] at g2
    exact BoundaryScheme.noConfusion g2
  · omega

theorem urel_bbrel_ghost {low high : BoundaryScheme} {size pd qd : ℕ} {c : ℤ}
    (hhom : low = BoundaryScheme.Periodic ↔ high = BoundaryScheme.Periodic)
    (hc : -1 ≤ c ∧ c ≤ 1) (hp : pd < size)
    (hu : URel low high size pd c qd) (hs : BBRel low high size qd (-c)) : False := by
  rcases hu with ⟨h1, h2, h3⟩ | ⟨h1, h2, h3⟩ | ⟨h1, h2, h3⟩ <;>
    rcases hs with ⟨g1, g2⟩ | ⟨g1, g2⟩
  · omega
  · omega
  · omega
  · have hper := hhom.mp h2
    rw [hper] at g2
    exact BoundaryScheme.noConfusion g2
  · have hper := hhom.mpr h2
    rw [hper] at g2
    exact BoundaryScheme.noConfusion g2
  · omega

theorem srel_bbrel {low high : BoundaryScheme} {size pd : ℕ} {c : ℤ}
    (hs : SRel low high size pd c) (hb : BBRel low high size pd c) : False := by
  rcases hs with ⟨h1, h2⟩ | ⟨h1, h2⟩ <;> rcases hb with ⟨g1, g2⟩ | ⟨g1, g2⟩
  · rw [h2] at g2
    exact BoundaryScheme.noConfusion g2
  · omega
  · omega
  · rw [h2] at g2
    exact BoundaryScheme.noConfusion g2

theorem urel_srel_same {low high : BoundaryScheme} {size pd rd : ℕ} {c : ℤ}
    (hu : URel low high size pd c rd) (hs : SRel low high size pd c) : False := by
  rcases hu with ⟨h1, h2, h3⟩ | ⟨h1, h2, h3⟩ | ⟨h1, h2, h3⟩ <;>
    rcases hs with ⟨g1, g2⟩ | ⟨g1, g2⟩
  · omega
  · omega
  · rw [h2] at g2
    exact BoundaryScheme.noConfusion g2
  · omega
  · omega
  · rw [h2] at g2
    exact BoundaryScheme.noConfusion g2

theorem raw_dest_component {low high : BoundaryScheme} {size pd qd rd : ℕ} {c : ℤ}
    (hhom : low = BoundaryScheme.Periodic ↔ high = BoundaryScheme.Periodic)
    (hc : -1 ≤ c ∧ c ≤ 1) (hp : pd < size)
    (hw : URel low high size pd c qd ∨ (qd = pd ∧ SRel low high size pd (-c)))
    (hr : URel low high size qd (-c) rd ∨ (rd = qd ∧ SRel low high size qd (-c))) :
    rd = pd := by
  rcases hw with hu | ⟨hqp, hs⟩
  · rcases hr with hu' | ⟨hrq, hs'⟩
    · rcases hu with ⟨h1, h2, h3⟩ | ⟨h1, h2, h3⟩ | ⟨h1, h2, h3⟩ <;>
        rcases hu' with ⟨g1, g2, g3⟩ | ⟨g1, g2, g3⟩ | ⟨g1, g2, g3⟩ <;> omega
    · exact absurd hs' (fun hs' => urel_srel_ghost hhom hc hp hu hs')
  · subst hqp
    rcases hr with hu' | ⟨hrq, hs'⟩
    · exact absurd hs (fun hs => urel_srel_same hu' hs)
    · rw [hrq]

theorem urel_bound {low high : BoundaryScheme} {size pd qd : ℕ} {c : ℤ}
    (hp : pd < size) (hu : URel low high size pd c qd) : qd < size := by
  rcases hu with ⟨h1, h2, h3⟩ | ⟨h1, h2, h3⟩ | ⟨h1, h2, h3⟩ <;> omega

theorem any_eq_false_of {α : Type} {l : List α} {f : α → Bool}
    (h : l.any f = false) {d : α} (hd : d ∈ l) : f d = false := by
  rcases hx : f d with _ | _
  · rfl
  · have ht : l.any f = true := List.any_eq_true.mpr ⟨d, hd, hx⟩
    rw [h] at ht
    exact Bool.noConfusion ht

theorem d2q9_c_bound {i d : ℕ} (hd : d < 2) :
    -1 ≤ (d2q9_lattice_parameters i).lattice_vector d ∧
      (d2q9_lattice_parameters i).lattice_vector d ≤ 1 := by
  rw [d2q9_lattice_parameters]
  by_cases hi : i < 9
  · rw [if_pos hi]
    interval_cases d <;> interval_cases i <;> exact ⟨by decide, by decide⟩
  · rw [if_neg hi]
    exact show (-1 : ℤ) ≤ 0 ∧ (0 : ℤ) ≤ 1 by decide

theorem d2q9_vec_inj {j j' : ℕ} (hj : j < 9) (hj' : j' < 9)
    (h : ∀ d, d < 2 → (d2q9_lattice_parameters j).lattice_vector d
      = (d2q9_lattice_parameters j').lattice_vector d) : j = j' := by
  have h0 := h 0 (by omega)
  have h1 := h 1 (by omega)
  interval_cases j <;> interval_cases j' <;> first
    | rfl
    | (exfalso; revert h0 h1; decide)

theorem stream_dim_some_char {low high : BoundaryScheme} {size p : ℕ} {c : ℤ} {x : ℕ}
    (h : (stream_dim low high size p c).1 = some x) :
    ((stream_dim low high size p c).2.2.1 = false ∧ (stream_dim low high size p c).2.1 = c ∧
      URel low high size p c x) ∨
    ((stream_dim low high size p c).2.2.1 = true ∧ (stream_dim low high size p c).2.1 = -c ∧
      x = p ∧ SRel low high size p c) := by
  rcases stream_dim_char low high size p c with ⟨h1, h2, he⟩ | ⟨h1, h2, he⟩ | ⟨h1, h2, he⟩ |
    ⟨h1, h2, he⟩ | ⟨h1, h2, he⟩ | ⟨h1, h2, he⟩ | ⟨h1, h2, he⟩ | ⟨h1, h2, he⟩ | ⟨h1, h2, he⟩ <;>
    rw [he] at h ⊢
  · refine Or.inl ⟨rfl, rfl, Or.inl ⟨h1, h2, ?_⟩⟩
    have hx := Option.some.inj h
    omega
  · exact Or.inl ⟨rfl, rfl, Or.inr (Or.inl ⟨h1, h2, (Option.some.inj h).symm⟩)⟩
  · exact Option.noConfusion h
  · exact Or.inr ⟨rfl, rfl, (Option.some.inj h).symm, Or.inl ⟨h1, h2⟩⟩
  · exact Option.noConfusion h
  · exact Or.inl ⟨rfl, rfl, Or.inr (Or.inr ⟨h1, h2, (Option.some.inj h).symm⟩)⟩
  · exact Option.noConfusion h
  · exact Or.inr ⟨rfl, rfl, (Option.some.inj h).symm, Or.inr ⟨h1, h2⟩⟩
  · exact Option.noConfusion h

theorem stream_dim_bb_char {low high : BoundaryScheme} {size p : ℕ} {c : ℤ}
    (h : (stream_dim low high size p c).2.2.2 = true) : BBRel low high size p c := by
  rcases stream_dim_char low high size p c with ⟨h1, h2, he⟩ | ⟨h1, h2, he⟩ | ⟨h1, h2, he⟩ |
    ⟨h1, h2, he⟩ | ⟨h1, h2, he⟩ | ⟨h1, h2, he⟩ | ⟨h1, h2, he⟩ | ⟨h1, h2, he⟩ | ⟨h1, h2, he⟩ <;>
    rw [he] at h
  · exact Bool.noConfusion h
  · exact Bool.noConfusion h
  · exact Or.inl ⟨h1, h2⟩
  · exact Bool.noConfusion h
  · exact Bool.noConfusion h
  · exact Bool.noConfusion h
  · exact Or.inr ⟨h1, h2⟩
  · exact Bool.noConfusion h
  · exact Bool.noConfusion h

theorem new_direction_char {st : Lbgk 2 9} {p : ℕ → ℕ} {i jj : ℕ} (hi : i < 9)
    (h : st.new_direction p i = some jj) :
    jj < 9 ∧ ((st.changed_lattice_vector p i = false ∧ jj = i) ∨
      (st.changed_lattice_vector p i = true ∧ ∀ d, d < 2 →
        (st.lattice_parameters jj).lattice_vector d = st.new_lattice_vector p i d)) := by
  rw [Lbgk.new_direction] at h
  by_cases hch : st.changed_lattice_vector p i = true
  · rw [if_pos hch] at h
    have hmem := List.mem_of_find?_eq_some h
    have hprop := List.find?_some h
    refine ⟨List.mem_range.mp hmem, Or.inr ⟨hch, ?_⟩⟩
    intro d hd
    have hall := List.all_eq_true.mp hprop d (List.mem_range.mpr hd)
    exact eq_of_beq hall
  · rw [if_neg hch] at h
    have hchf : st.changed_lattice_vector p i = false := by
      rcases hx : st.changed_lattice_vector p i with _ | _
      · rfl
      · exact absurd hx hch
    exact ⟨(Option.some.inj h) ▸ hi, Or.inl ⟨hchf, (Option.some.inj h).symm⟩⟩

/-- Characterization of a non-bounce streaming write: the slot is the raw
destination (which is a fluid cell), and per dimension the source either moved
unadjusted (keeping the vector component) or was specularly reflected (staying
put with the component negated). -/
theorem write_target_nb_char {st : Lbgk 2 9} {p : ℕ → ℕ} {i t jj : ℕ} (hi : i < 9)
    (hb : st.bounce_back p i = false)
    (h : st.write_target p i = some (t, jj)) :
    jj < 9 ∧ st.raw_resolved p i = true ∧
      t = st.index (st.raw_dest p i) ∧
      st.object (st.index (st.raw_dest p i)) = false ∧
      ∀ d, d < 2 →
        (((st.lattice_parameters jj).lattice_vector d
            = (st.lattice_parameters i).lattice_vector d ∧
          URel (st.boundary_schemes d 0) (st.boundary_schemes d 1) (st.size d) (p d)
            ((st.lattice_parameters i).lattice_vector d) (st.raw_dest p i d)) ∨
        ((st.lattice_parameters jj).lattice_vector d
            = -((st.lattice_parameters i).lattice_vector d) ∧
          st.raw_dest p i d = p d ∧
          SRel (st.boundary_schemes d 0) (st.boundary_schemes d 1) (st.size d) (p d)
            ((st.lattice_parameters i).lattice_vector d))) := by
  rw [Lbgk.write_target] at h
  by_cases hfr : st.final_resolved p i = true
  · rw [if_pos hfr] at h
    have hraw : st.raw_resolved p i = true := by
      rw [Lbgk.final_resolved, hb, Bool.false_or] at hfr
      exact hfr
    rcases hnd : st.new_direction p i with _ | j
    · rw [hnd] at h
      exact Option.noConfusion h
    · rw [hnd] at h
      simp only [Option.some.injEq, Prod.mk.injEq] at h
      obtain ⟨ht, hj⟩ := h
      subst hj
      have hnbp : ¬ (st.bounce_back p i = true) := fun hx => by
        rw [hb] at hx
        exact Bool.noConfusion hx
      have hdest : st.new_dest p i = st.raw_dest p i := by
        rw [Lbgk.new_dest, if_neg hnbp]
      have hob : st.object (st.index (st.raw_dest p i)) = false := by
        rw [Lbgk.bounce_back, Bool.or_eq_false_iff] at hb
        have hoh := hb.2
        rw [Lbgk.obstacle_hit, hraw, Bool.true_and] at hoh
        exact hoh
      obtain ⟨hjj9, hcases⟩ := new_direction_char hi hnd
      have hnlv : st.new_lattice_vector p i = fun d => (st.stream_move p i d).2.1 := by
        rw [Lbgk.new_lattice_vector, if_neg hnbp]
      refine ⟨hjj9, hraw, by rw [← ht, hdest], hob, ?_⟩
      intro d hd
      have hsome : ((st.stream_move p i d).1.isSome) = true := by
        rw [Lbgk.raw_resolved] at hraw
        exact List.all_eq_true.mp hraw d (List.mem_range.mpr hd)
      obtain ⟨x, hx⟩ := Option.isSome_iff_exists.mp hsome
      have hrdx : st.raw_dest p i d = x := by
        rw [Lbgk.raw_dest, if_pos hd, hx]
        rfl
      rw [Lbgk.stream_move] at hx
      have hsd := stream_dim_some_char hx
      rcases hcases with ⟨hchf, hji⟩ | ⟨hcht, hvec⟩
      · rw [Lbgk.changed_lattice_vector, Bool.or_eq_false_iff] at hchf
        have hsp := hchf.1
        rw [Lbgk.spec_changed] at hsp
        have hflag : (stream_dim (st.boundary_schemes d 0) (st.boundary_schemes d 1)
            (st.size d) (p d) ((st.lattice_parameters i).lattice_vector d)).2.2.1 = false :=
          any_eq_false_of hsp (List.mem_range.mpr hd)
        rcases hsd with ⟨hf, hc1, hu⟩ | ⟨hf, hc1, hxp, hs⟩
        · exact Or.inl ⟨by rw [hji], by rw [hrdx]; exact hu⟩
        · rw [hflag] at hf
          exact Bool.noConfusion hf
      · have hvd0 := hvec d hd
        rw [hnlv] at hvd0
        have hvd : (st.lattice_parameters j).lattice_vector d
            = (stream_dim (st.boundary_schemes d 0) (st.boundary_schemes d 1)
              (st.size d) (p d) ((st.lattice_parameters i).lattice_vector d)).2.1 := hvd0
        rcases hsd with ⟨hf, hc1, hu⟩ | ⟨hf, hc1, hxp, hs⟩
        · exact Or.inl ⟨by rw [hvd, hc1], by rw [hrdx]; exact hu⟩
        · exact Or.inr ⟨by rw [hvd, hc1], by rw [hrdx, hxp], hs⟩
  · rw [if_neg hfr] at h
    exact Option.noConfusion h

/-- Characterization of a bounce-back streaming write: the slot is the origin
cell with the fully negated direction, and the trigger is either a BounceBack
side crossing in some dimension or an obstacle at the resolved raw
destination. -/
theorem write_target_b_char {st : Lbgk 2 9} {p : ℕ → ℕ} {i t jj : ℕ} (hi : i < 9)
    (hnorm : Normalized 2 p) (hb : st.bounce_back p i = true)
    (h : st.write_target p i = some (t, jj)) :
    jj < 9 ∧ t = st.index p ∧
      (∀ d, d < 2 → (st.lattice_parameters jj).lattice_vector d
        = -((st.lattice_parameters i).lattice_vector d)) ∧
      ((∃ d, d < 2 ∧
          BBRel (st.boundary_schemes d 0) (st.boundary_schemes d 1) (st.size d) (p d)
            ((st.lattice_parameters i).lattice_vector d)) ∨
        (st.raw_resolved p i = true ∧ st.object (st.index (st.raw_dest p i)) = true ∧
          ∀ d, d < 2 →
            (URel (st.boundary_schemes d 0) (st.boundary_schemes d 1) (st.size d) (p d)
              ((st.lattice_parameters i).lattice_vector d) (st.raw_dest p i d) ∨
            (st.raw_dest p i d = p d ∧
              SRel (st.boundary_schemes d 0) (st.boundary_schemes d 1) (st.size d) (p d)
                ((st.lattice_parameters i).lattice_vector d))))) := by
  rw [Lbgk.write_target] at h
  have hfr : st.final_resolved p i = true := by
    rw [Lbgk.final_resolved, hb, Bool.true_or]
  rw [if_pos hfr] at h
  rcases hnd : st.new_direction p i with _ | j
  · rw [hnd] at h
    exact Option.noConfusion h
  · rw [hnd] at h
    simp only [Option.some.injEq, Prod.mk.injEq] at h
    obtain ⟨ht, hj⟩ := h
    subst hj
    have hdest : st.new_dest p i = p := by
      rw [Lbgk.new_dest, if_pos hb]
      funext d
      by_cases hd : d < 2
      · rw [if_pos hd]
      · rw [if_neg hd, hnorm d (by omega)]
    obtain ⟨hjj9, hcases⟩ := new_direction_char hi hnd
    have hnlv : st.new_lattice_vector p i
        = fun d => -((st.lattice_parameters i).lattice_vector d) := by
      rw [Lbgk.new_lattice_vector, if_pos hb]
    have hvec : ∀ d, d < 2 → (st.lattice_parameters j).lattice_vector d
        = -((st.lattice_parameters i).lattice_vector d) := by
      rcases hcases with ⟨hchf, hji⟩ | ⟨hcht, hvc⟩
      · rw [Lbgk.changed_lattice_vector, hb, Bool.or_true] at hchf
        exact Bool.noConfusion hchf
      · intro d hd
        rw [hvc d hd, hnlv]
    refine ⟨hjj9, by rw [← ht, hdest], hvec, ?_⟩
    rw [Lbgk.bounce_back, Bool.or_eq_true] at hb
    rcases hb with hcr | hoh
    · rw [Lbgk.bounce_crossing, List.any_eq_true] at hcr
      obtain ⟨d, hdmem, hflag⟩ := hcr
      have hflag2 : (stream_dim (st.boundary_schemes d 0) (st.boundary_schemes d 1)
          (st.size d) (p d) ((st.lattice_parameters i).lattice_vector d)).2.2.2 = true := hflag
      exact Or.inl ⟨d, List.mem_range.mp hdmem, stream_dim_bb_char hflag2⟩
    · rw [Lbgk.obstacle_hit, Bool.and_eq_true] at hoh
      obtain ⟨hraw, hobj⟩ := hoh
      refine Or.inr ⟨hraw, hobj, ?_⟩
      intro d hd
      have hsome : ((st.stream_move p i d).1.isSome) = true := by
        rw [Lbgk.raw_resolved] at hraw
        exact List.all_eq_true.mp hraw d (List.mem_range.mpr hd)
      obtain ⟨x, hx⟩ := Option.isSome_iff_exists.mp hsome
      have hrdx : st.raw_dest p i d = x := by
        rw [Lbgk.raw_dest, if_pos hd, hx]
        rfl
      rw [Lbgk.stream_move] at hx
      rcases stream_dim_some_char hx with ⟨hf, hc1, hu⟩ | ⟨hf, hc1, hxp, hs⟩
      · exact Or.inl (by rw [hrdx]; exact hu)
      · exact Or.inr ⟨by rw [hrdx, hxp], hs⟩

theorem raw_dest_norm {st : Lbgk 2 9} (p : ℕ → ℕ) (i : ℕ) :
    Normalized 2 (st.raw_dest p i) := by
  intro d hd
  rw [Lbgk.raw_dest, if_neg (by omega)]

/-- A non-bounce write and a bounce-back write never share a slot (under
per-dimension periodic homogeneity): the bounce's origin would be the raw
destination of the non-bounce move, and recovering the bounce's own raw
destination leads back to the non-bounce source, which is a fluid cell. -/
theorem write_target_mixed_conflict (st : Lbgk 2 9)
    (hlp : st.lattice_parameters = d2q9_lattice_parameters)
    (hhom : PeriodicHom st)
    {p p' : ℕ → ℕ} (hn : Normalized 2 p) (hn' : Normalized 2 p')
    (hib : st.InBounds p) (hib' : st.InBounds p')
    (hob : st.object (st.index p) = false)
    {i i' t jj : ℕ} (hi : i < 9) (hi' : i' < 9)
    (hbp : st.bounce_back p i = false) (hbp' : st.bounce_back p' i' = true)
    (h : st.write_target p i = some (t, jj)) (h' : st.write_target p' i' = some (t, jj)) :
    False := by
  obtain ⟨hjj9, hraw, ht, hqob, hdim⟩ := write_target_nb_char hi hbp h
  obtain ⟨_, ht', hvec', htrig⟩ := write_target_b_char hi' hn' hbp' h'
  have hqb : ∀ d, d < 2 → st.raw_dest p i d < st.size d := by
    intro d hd
    rcases hdim d hd with ⟨_, hu⟩ | ⟨_, hxp, _⟩
    · exact urel_bound (hib d hd) hu
    · rw [hxp]
      exact hib d hd
  have hqp' : st.raw_dest p i = p' := by
    apply index_two_inj st (hqb 0 (by omega)) (hib' 0 (by omega)) (raw_dest_norm p i) hn'
    rw [← ht, ht']
  rcases htrig with ⟨d, hd, hbb⟩ | ⟨hraw', hobj', hdim'⟩
  · have hcv' := hvec' d hd
    have hcv'2 : (st.lattice_parameters i').lattice_vector d
        = -((st.lattice_parameters jj).lattice_vector d) := by omega
    have hqd : st.raw_dest p i d = p' d := congrFun hqp' d
    rcases hdim d hd with ⟨hcu, hu⟩ | ⟨hcs, hxp, hs⟩
    · apply urel_bbrel_ghost (hhom d hd) (by rw [hlp]; exact d2q9_c_bound hd) (hib d hd) hu
      rw [hcv'2, hcu, ← hqd] at hbb
      exact hbb
    · apply srel_bbrel hs
      rw [hcv'2, hcs, neg_neg, ← hqd, hxp] at hbb
      exact hbb
  · have hrq : st.raw_dest p' i' = p := by
      funext d
      by_cases hd : d < 2
      · have hcv' := hvec' d hd
        have hcjj : -1 ≤ (st.lattice_parameters jj).lattice_vector d ∧
            (st.lattice_parameters jj).lattice_vector d ≤ 1 := by
          rw [hlp]
          exact d2q9_c_bound hd
        have hqd : st.raw_dest p i d = p' d := congrFun hqp' d
        have hci' : (st.lattice_parameters i').lattice_vector d
            = -((st.lattice_parameters jj).lattice_vector d) := by omega
        have hw : URel (st.boundary_schemes d 0) (st.boundary_schemes d 1) (st.size d) (p d)
            ((st.lattice_parameters jj).lattice_vector d) (st.raw_dest p i d) ∨
            (st.raw_dest p i d = p d ∧
              SRel (st.boundary_schemes d 0) (st.boundary_schemes d 1) (st.size d) (p d)
                (-((st.lattice_parameters jj).lattice_vector d))) := by
          rcases hdim d hd with ⟨hcu, hu⟩ | ⟨hcs, hxp, hs⟩
          · rw [← hcu] at hu
            exact Or.inl hu
          · have hci : (st.lattice_parameters i).lattice_vector d
                = -((st.lattice_parameters jj).lattice_vector d) := by omega
            rw [hci] at hs
            exact Or.inr ⟨hxp, hs⟩
        have hr : URel (st.boundary_schemes d 0) (st.boundary_schemes d 1) (st.size d)
            (st.raw_dest p i d) (-((st.lattice_parameters jj).lattice_vector d))
            (st.raw_dest p' i' d) ∨
            (st.raw_dest p' i' d = st.raw_dest p i d ∧
              SRel (st.boundary_schemes d 0) (st.boundary_schemes d 1) (st.size d)
                (st.raw_dest p i d) (-((st.lattice_parameters jj).lattice_vector d))) := by
          rcases hdim' d hd with hu' | ⟨hxp', hs'⟩
          · rw [hci', ← hqd] at hu'
            exact Or.inl hu'
          · rw [hci', ← hqd] at hs'
            rw [← hqd] at hxp'
            exact Or.inr ⟨hxp', hs'⟩
        exact raw_dest_component (hhom d hd) hcjj (hib d hd) hw hr
      · rw [Lbgk.raw_dest, if_neg (by omega), hn d (by omega)]
    rw [hrq] at hobj'
    rw [hob] at hobj'
    exact Bool.noConfusion hobj'

/-- Claim C4 (amended): in one D2Q9 streaming pass, if every dimension has its
two boundary sides both Periodic or both non-Periodic, then the map from
(non-obstacle in-bounds source cell, direction) pairs to the written
destination (cell index, direction index) slot is injective: two source pairs
producing the same write slot are equal. -/
theorem streaming_write_injective (st : Lbgk 2 9)
    (hlp : st.lattice_parameters = d2q9_lattice_parameters)
    (hhom : PeriodicHom st)
    {p p' : ℕ → ℕ} (hn : Normalized 2 p) (hn' : Normalized 2 p')
    (hib : st.InBounds p) (hib' : st.InBounds p')
    (hob : st.object (st.index p) = false) (hob' : st.object (st.index p') = false)
    {i i' t jj : ℕ} (hi : i < 9) (hi' : i' < 9)
    (h : st.write_target p i = some (t, jj)) (h' : st.write_target p' i' = some (t, jj)) :
    p = p' ∧ i = i' := by
  rcases hbp : st.bounce_back p i with _ | _
  · rcases hbp' : st.bounce_back p' i' with _ | _
    · obtain ⟨hjj9, hraw, ht, hqob, hdim⟩ := write_target_nb_char hi hbp h
      obtain ⟨_, hraw', ht', hqob', hdim'⟩ := write_target_nb_char hi' hbp' h'
      have hqb : ∀ d, d < 2 → st.raw_dest p i d < st.size d := by
        intro d hd
        rcases hdim d hd with ⟨_, hu⟩ | ⟨_, hxp, _⟩
        · exact urel_bound (hib d hd) hu
        · rw [hxp]
          exact hib d hd
      have hqb' : ∀ d, d < 2 → st.raw_dest p' i' d < st.size d := by
        intro d hd
        rcases hdim' d hd with ⟨_, hu⟩ | ⟨_, hxp, _⟩
        · exact urel_bound (hib' d hd) hu
        · rw [hxp]
          exact hib' d hd
      have hqq : st.raw_dest p i = st.raw_dest p' i' := by
        apply index_two_inj st (hqb 0 (by omega)) (hqb' 0 (by omega))
          (raw_dest_norm p i) (raw_dest_norm p' i')
        rw [← ht, ht']
      have key : ∀ d, d < 2 → p d = p' d ∧
          (st.lattice_parameters i).lattice_vector d
            = (st.lattice_parameters i').lattice_vector d := by
        intro d hd
        have hqd := congrFun hqq d
        have hc : -1 ≤ (st.lattice_parameters i).lattice_vector d ∧
            (st.lattice_parameters i).lattice_vector d ≤ 1 := by
          rw [hlp]
          exact d2q9_c_bound hd
        have hc' : -1 ≤ (st.lattice_parameters i').lattice_vector d ∧
            (st.lattice_parameters i').lattice_vector d ≤ 1 := by
          rw [hlp]
          exact d2q9_c_bound hd
        rcases hdim d hd with ⟨hcu, hu⟩ | ⟨hcs, hxp, hs⟩ <;>
          rcases hdim' d hd with ⟨hcu', hu'⟩ | ⟨hcs', hxp', hs'⟩
        · have hcc : (st.lattice_parameters i).lattice_vector d
              = (st.lattice_parameters i').lattice_vector d := by rw [← hcu, ← hcu']
          refine ⟨?_, hcc⟩
          have hu'2 := hu'
          rw [← hcc, ← hqd] at hu'2
          exact urel_inj hc (hib d hd) (hib' d hd) hu hu'2
        · exfalso
          have hci' : (st.lattice_parameters i').lattice_vector d
              = -((st.lattice_parameters i).lattice_vector d) := by omega
          rw [hci'] at hs'
          have hp'q : p' d = st.raw_dest p i d := by rw [hqd, hxp']
          rw [hp'q] at hs'
          exact urel_srel_ghost (hhom d hd) hc (hib d hd) hu hs'
        · exfalso
          have hci : (st.lattice_parameters i).lattice_vector d
              = -((st.lattice_parameters i').lattice_vector d) := by omega
          rw [hci] at hs
          have hpq : p d = st.raw_dest p' i' d := by rw [← hqd, hxp]
          rw [hpq] at hs
          exact urel_srel_ghost (hhom d hd) hc' (hib' d hd) hu' hs
        · refine ⟨by rw [← hxp, hqd, hxp'], by omega⟩
      have hpp : p = p' := by
        funext d
        by_cases hd : d < 2
        · exact (key d hd).1
        · rw [hn d (by omega), hn' d (by omega)]
      refine ⟨hpp, ?_⟩
      apply d2q9_vec_inj hi hi'
      intro d hd
      rw [← hlp]
      exact (key d hd).2
    · exact (write_target_mixed_conflict st hlp hhom hn hn' hib hib' hob hi hi'
        hbp hbp' h h').elim
  · rcases hbp' : st.bounce_back p' i' with _ | _
    · exact (write_target_mixed_conflict st hlp hhom hn' hn hib' hib hob' hi' hi
        hbp' hbp h' h).elim
    · obtain ⟨hjj9, ht, hvec, _⟩ := write_target_b_char hi hn hbp h
      obtain ⟨_, ht', hvec', _⟩ := write_target_b_char hi' hn' hbp' h'
      have hpp : p = p' := by
        apply index_two_inj st (hib 0 (by omega)) (hib' 0 (by omega)) hn hn'
        rw [← ht, ht']
      refine ⟨hpp, ?_⟩
      apply d2q9_vec_inj hi hi'
      intro d hd
      have h1 := hvec d hd
      have h2 := hvec' d hd
      rw [← hlp]
      omega

/-- An all-Periodic 2×2 D2Q9 state. -/
def c4w_state : Lbgk 2 9 :=
  new_d2q9 (fun _ => 2) (fun _ _ => BoundaryScheme.Periodic) 1 (fun _ => 0)

theorem streaming_write_injective_witness :
    mk_pos2 0 0 = mk_pos2 0 0 ∧ (1 : ℕ) = 1 :=
  @streaming_write_injective c4w_state rfl (fun d hd => Iff.rfl)
    (mk_pos2 0 0) (mk_pos2 0 0)
    (fun d hd => by simp only [mk_pos2]; rw [if_neg (by omega), if_neg (by omega)])
    (fun d hd => by simp only [mk_pos2]; rw [if_neg (by omega), if_neg (by omega)])
    (fun d hd => by interval_cases d <;> decide)
    (fun d hd => by interval_cases d <;> decide)
    rfl rfl 1 1 1 1 (by omega) (by omega) (by decide) (by decide)

/-! ### Mass conservation with all-Periodic boundaries (claim C3) -/

/-- Sum of the stored densities over all cells of a two-dimensional grid. -/
def totalDensity {B : ℕ} (st : Lbgk 2 B) : ℚ :=
  ∑ n ∈ Finset.range (st.size 0 * st.size 1), (st.algorithm_values n).density

/-- One periodic per-dimension coordinate advance. -/
def wrap1 (size pd : ℕ) (c : ℤ) : ℕ :=
  if (pd:ℤ) + c < 0 then size - 1
  else if (size:ℤ) ≤ (pd:ℤ) + c then 0
  else ((pd:ℤ) + c).toNat

/-- Periodic destination position of a streaming move. -/
def Lbgk.wrap_pos {B : ℕ} (st : Lbgk 2 B) (p : ℕ → ℕ) (i : ℕ) : ℕ → ℕ :=
  fun d => if d < 2 then
    wrap1 (st.size d) (p d) ((st.lattice_parameters i).lattice_vector d) else 0

/-- Periodic source position of a streaming move into a given cell. -/
def Lbgk.unwrap_pos {B : ℕ} (st : Lbgk 2 B) (r : ℕ → ℕ) (i : ℕ) : ℕ → ℕ :=
  fun d => if d < 2 then
    wrap1 (st.size d) (r d) (-((st.lattice_parameters i).lattice_vector d)) else 0

theorem wrap1_urel (size pd : ℕ) (c : ℤ) :
    URel BoundaryScheme.Periodic BoundaryScheme.Periodic size pd c (wrap1 size pd c) := by
  rw [wrap1]
  by_cases h1 : (pd:ℤ) + c < 0
  · rw [if_pos h1]
    exact Or.inr (Or.inl ⟨h1, rfl, rfl⟩)
  · by_cases h2 : (size:ℤ) ≤ (pd:ℤ) + c
    · rw [if_neg h1, if_pos h2]
      exact Or.inr (Or.inr ⟨h2, rfl, rfl⟩)
    · rw [if_neg h1, if_neg h2]
      exact Or.inl ⟨by omega, by omega, by omega⟩

theorem wrap1_lt {size pd : ℕ} (c : ℤ) (hp : pd < size) : wrap1 size pd c < size := by
  rcases wrap1_urel size pd c with ⟨h1, h2, h3⟩ | ⟨h1, h2, h3⟩ | ⟨h1, h2, h3⟩ <;> omega

theorem urel_unwrap {low high : BoundaryScheme} {size pd qd rd : ℕ} {c : ℤ}
    (hc : -1 ≤ c ∧ c ≤ 1) (hp : pd < size)
    (hu : URel low high size pd c qd) (hu' : URel low high size qd (-c) rd) : rd = pd := by
  rcases hu with ⟨h1, h2, h3⟩ | ⟨h1, h2, h3⟩ | ⟨h1, h2, h3⟩ <;>
    rcases hu' with ⟨g1, g2, g3⟩ | ⟨g1, g2, g3⟩ | ⟨g1, g2, g3⟩ <;> omega

theorem stream_dim_periodic (size pd : ℕ) (c : ℤ) :
    stream_dim BoundaryScheme.Periodic BoundaryScheme.Periodic size pd c
      = (some (wrap1 size pd c), c, false, false) := by
  by_cases h1 : (pd:ℤ) + c < 0
  · simp [stream_dim, wrap1, h1]
  · by_cases h2 : (size:ℤ) ≤ (pd:ℤ) + c
    · simp [stream_dim, wrap1, h1, h2]
    · simp [stream_dim, wrap1, h1, h2]

/-- With all-Periodic sides and no obstacles, every streaming move writes the
periodically wrapped destination cell in the same direction. -/
theorem write_target_periodic {B : ℕ} (st : Lbgk 2 B)
    (hper : ∀ d s, d < 2 → s < 2 → st.boundary_schemes d s = BoundaryScheme.Periodic)
    (hobj : ∀ n, st.object n = false) (p : ℕ → ℕ) (i : ℕ) :
    st.write_target p i = some (st.index (st.wrap_pos p i), i) := by
  have hsm : ∀ d, d < 2 → st.stream_move p i d
      = (some (wrap1 (st.size d) (p d) ((st.lattice_parameters i).lattice_vector d)),
         (st.lattice_parameters i).lattice_vector d, false, false) := by
    intro d hd
    rw [Lbgk.stream_move, hper d 0 hd (by omega), hper d 1 hd (by omega)]
    exact stream_dim_periodic _ _ _
  have hraw : st.raw_resolved p i = true := by
    rw [Lbgk.raw_resolved, List.all_eq_true]
    intro d hdmem
    show ((st.stream_move p i d).1.isSome) = true
    rw [hsm d (List.mem_range.mp hdmem)]
    rfl
  have hbc : st.bounce_crossing p i = false := by
    rw [Lbgk.bounce_crossing]
    rcases hx : (List.range 2).any fun d => (st.stream_move p i d).2.2.2 with _ | _
    · rfl
    · exfalso
      obtain ⟨d, hdmem, hflag⟩ := List.any_eq_true.mp hx
      have hflag2 : (st.stream_move p i d).2.2.2 = true := hflag
      rw [hsm d (List.mem_range.mp hdmem)] at hflag2
      exact Bool.noConfusion hflag2
  have hsp : st.spec_changed p i = false := by
    rw [Lbgk.spec_changed]
    rcases hx : (List.range 2).any fun d => (st.stream_move p i d).2.2.1 with _ | _
    · rfl
    · exfalso
      obtain ⟨d, hdmem, hflag⟩ := List.any_eq_true.mp hx
      have hflag2 : (st.stream_move p i d).2.2.1 = true := hflag
      rw [hsm d (List.mem_range.mp hdmem)] at hflag2
      exact Bool.noConfusion hflag2
  have hoh : st.obstacle_hit p i = false := by
    rw [Lbgk.obstacle_hit, hobj, Bool.and_false]
  have hbb : st.bounce_back p i = false := by
    rw [Lbgk.bounce_back, hbc, hoh]
    rfl
  have hnbp : ¬ (st.bounce_back p i = true) := fun hx => by
    rw [hbb] at hx
    exact Bool.noConfusion hx
  have hch : st.changed_lattice_vector p i = false := by
    rw [Lbgk.changed_lattice_vector, hsp, hbb]
    rfl
  have hfr : st.final_resolved p i = true := by
    rw [Lbgk.final_resolved, hbb, hraw]
    rfl
  have hnd : st.new_direction p i = some i := by
    rw [Lbgk.new_direction, hch]
    rw [if_neg Bool.false_ne_true]
  have hdest : st.new_dest p i = st.raw_dest p i := by
    rw [Lbgk.new_dest, if_neg hnbp]
  have hrd : st.raw_dest p i = st.wrap_pos p i := by
    funext d
    rw [Lbgk.raw_dest, Lbgk.wrap_pos]
    by_cases hd : d < 2
    · rw [if_pos hd, if_pos hd, hsm d hd]
      rfl
    · rw [if_neg hd, if_neg hd]
  rw [Lbgk.write_target, hfr, if_pos rfl, hnd, hdest, hrd]

theorem wrap_pos_in_bounds {B : ℕ} (st : Lbgk 2 B) {p : ℕ → ℕ} (hp : st.InBounds p)
    (i : ℕ) : st.InBounds (st.wrap_pos p i) := by
  intro d hd
  show (if d < 2 then
    wrap1 (st.size d) (p d) ((st.lattice_parameters i).lattice_vector d) else 0) < st.size d
  rw [if_pos hd]
  exact wrap1_lt _ (hp d hd)

theorem wrap_pos_norm {B : ℕ} (st : Lbgk 2 B) (p : ℕ → ℕ) (i : ℕ) :
    Normalized 2 (st.wrap_pos p i) := by
  intro d hd
  show (if d < 2 then
    wrap1 (st.size d) (p d) ((st.lattice_parameters i).lattice_vector d) else 0) = 0
  rw [if_neg (by omega)]

theorem unwrap_pos_in_bounds {B : ℕ} (st : Lbgk 2 B) {r : ℕ → ℕ} (hr : st.InBounds r)
    (i : ℕ) : st.InBounds (st.unwrap_pos r i) := by
  intro d hd
  show (if d < 2 then
    wrap1 (st.size d) (r d) (-((st.lattice_parameters i).lattice_vector d)) else 0) < st.size d
  rw [if_pos hd]
  exact wrap1_lt _ (hr d hd)

theorem unwrap_pos_norm {B : ℕ} (st : Lbgk 2 B) (r : ℕ → ℕ) (i : ℕ) :
    Normalized 2 (st.unwrap_pos r i) := by
  intro d hd
  show (if d < 2 then
    wrap1 (st.size d) (r d) (-((st.lattice_parameters i).lattice_vector d)) else 0) = 0
  rw [if_neg (by omega)]

theorem wrap_unwrap {B : ℕ} (st : Lbgk 2 B)
    (hlp : st.lattice_parameters = d2q9_lattice_parameters)
    {r : ℕ → ℕ} (hr : st.InBounds r) (hrn : Normalized 2 r) (i : ℕ) :
    st.wrap_pos (st.unwrap_pos r i) i = r := by
  funext d
  by_cases hd : d < 2
  · show (if d < 2 then wrap1 (st.size d) (st.unwrap_pos r i d)
      ((st.lattice_parameters i).lattice_vector d) else 0) = r d
    rw [if_pos hd]
    have hc : -1 ≤ (st.lattice_parameters i).lattice_vector d ∧
        (st.lattice_parameters i).lattice_vector d ≤ 1 := by
      rw [hlp]
      exact d2q9_c_bound hd
    have hu1 : URel BoundaryScheme.Periodic BoundaryScheme.Periodic (st.size d) (r d)
        (-((st.lattice_parameters i).lattice_vector d)) (st.unwrap_pos r i d) := by
      show URel _ _ _ _ _ (if d < 2 then
        wrap1 (st.size d) (r d) (-((st.lattice_parameters i).lattice_vector d)) else 0)
      rw [if_pos hd]
      exact wrap1_urel _ _ _
    have hu2 : URel BoundaryScheme.Periodic BoundaryScheme.Periodic (st.size d)
        (st.unwrap_pos r i d) (-(-((st.lattice_parameters i).lattice_vector d)))
        (wrap1 (st.size d) (st.unwrap_pos r i d)
          ((st.lattice_parameters i).lattice_vector d)) := by
      rw [neg_neg]
      exact wrap1_urel _ _ _
    exact urel_unwrap ⟨by omega, by omega⟩ (hr d hd) hu1 hu2
  · show (if d < 2 then wrap1 (st.size d) (st.unwrap_pos r i d)
      ((st.lattice_parameters i).lattice_vector d) else 0) = r d
    rw [if_neg hd, hrn d (by omega)]

theorem unwrap_unique {B : ℕ} (st : Lbgk 2 B)
    (hlp : st.lattice_parameters = d2q9_lattice_parameters)
    {q r : ℕ → ℕ} (hq : st.InBounds q) (hqn : Normalized 2 q) (i : ℕ)
    (hw : st.wrap_pos q i = r) : q = st.unwrap_pos r i := by
  funext d
  by_cases hd : d < 2
  · have hc : -1 ≤ (st.lattice_parameters i).lattice_vector d ∧
        (st.lattice_parameters i).lattice_vector d ≤ 1 := by
      rw [hlp]
      exact d2q9_c_bound hd
    have hu1 : URel BoundaryScheme.Periodic BoundaryScheme.Periodic (st.size d) (q d)
        ((st.lattice_parameters i).lattice_vector d) (st.wrap_pos q i d) := by
      show URel _ _ _ _ _ (if d < 2 then
        wrap1 (st.size d) (q d) ((st.lattice_parameters i).lattice_vector d) else 0)
      rw [if_pos hd]
      exact wrap1_urel _ _ _
    rw [hw] at hu1
    have hu2 : URel BoundaryScheme.Periodic BoundaryScheme.Periodic (st.size d) (r d)
        (-((st.lattice_parameters i).lattice_vector d)) (st.unwrap_pos r i d) := by
      show URel _ _ _ _ _ (if d < 2 then
        wrap1 (st.size d) (r d) (-((st.lattice_parameters i).lattice_vector d)) else 0)
      rw [if_pos hd]
      exact wrap1_urel _ _ _
    exact (urel_unwrap hc (hq d hd) hu1 hu2).symm
  · show q d = (if d < 2 then
      wrap1 (st.size d) (r d) (-((st.lattice_parameters i).lattice_vector d)) else 0)
    rw [if_neg hd, hqn d (by omega)]

/-- Flat-index decoding for a two-dimensional grid. -/
def posOf (s0 n : ℕ) : ℕ → ℕ := mk_pos2 (n % s0) (n / s0)

theorem posOf_in_bounds {B : ℕ} (st : Lbgk 2 B) {n : ℕ}
    (hn : n < st.size 0 * st.size 1) : st.InBounds (posOf (st.size 0) n) := by
  have h0 : 0 < st.size 0 := by
    rcases Nat.eq_zero_or_pos (st.size 0) with h | h
    · rw [h] at hn
      omega
    · exact h
  intro d hd
  interval_cases d
  · show n % st.size 0 < st.size 0
    exact Nat.mod_lt _ h0
  · show n / st.size 0 < st.size 1
    rw [Nat.div_lt_iff_lt_mul h0]
    calc n < st.size 0 * st.size 1 := hn
    _ = st.size 1 * st.size 0 := Nat.mul_comm _ _

theorem posOf_norm (s0 n : ℕ) : Normalized 2 (posOf s0 n) := by
  intro d hd
  show (if d = 0 then n % s0 else if d = 1 then n / s0 else 0) = 0
  rw [if_neg (by omega), if_neg (by omega)]

theorem index_posOf {B : ℕ} (st : Lbgk 2 B) (n : ℕ) :
    st.index (posOf (st.size 0) n) = n := by
  rw [index_two]
  show n % st.size 0 + st.size 0 * (n / st.size 0) = n
  exact Nat.mod_add_div n (st.size 0)

theorem index_lt {B : ℕ} (st : Lbgk 2 B) {p : ℕ → ℕ} (hp : st.InBounds p) :
    st.index p < st.size 0 * st.size 1 := by
  have h0 := hp 0 (by omega)
  have h1 := hp 1 (by omega)
  have h2 : st.size 0 * (p 1 + 1) ≤ st.size 0 * st.size 1 :=
    Nat.mul_le_mul_left _ (by omega)
  have h3 : st.size 0 * (p 1 + 1) = st.size 0 * p 1 + st.size 0 := by ring
  rw [index_two]
  omega

theorem posOf_index {B : ℕ} (st : Lbgk 2 B) {p : ℕ → ℕ} (hp : st.InBounds p)
    (hpn : Normalized 2 p) : posOf (st.size 0) (st.index p) = p := by
  have h0 := hp 0 (by omega)
  funext d
  by_cases hd : d < 2
  · interval_cases d
    · show st.index p % st.size 0 = p 0
      rw [index_two, Nat.add_mul_mod_self_left, Nat.mod_eq_of_lt h0]
    · show st.index p / st.size 0 = p 1
      rw [index_two, Nat.add_mul_div_left _ _ (by omega), Nat.div_eq_of_lt h0]
      omega
  · show (if d = 0 then _ else if d = 1 then _ else 0) = p d
    rw [if_neg (by omega), if_neg (by omega), hpn d (by omega)]

/-- The nine equilibrium distributions sum to the density (the D2Q9 zeroth
moment identity). -/
theorem d2q9_feq_sum (ρ : ℚ) (u : ℕ → ℚ) :
    ∑ i ∈ Finset.range 9,
      equilibrium_distributions 2 9 d2q9_lattice_parameters d2q9_CS2 ρ u i = ρ := by
  have hdot : ∀ w : ℕ → ℚ, dot_product 2 w u = w 0 * u 0 + w 1 * u 1 := by
    intro w
    rw [dot_product, Finset.sum_range_succ, Finset.sum_range_succ, Finset.sum_range_zero]
    ring
  simp only [Finset.sum_range_succ, Finset.sum_range_zero, equilibrium_distributions,
    d2q9_lattice_parameters, d2q9_CS2, hdot]
  norm_num [d2q9_C, d2q9_W]
  ring

/-- At a density-consistent cell the post-collision populations again sum to
the stored density. -/
theorem collide_cell_sum (st : Lbgk 2 9) (τ : ℚ)
    (hlp : st.lattice_parameters = d2q9_lattice_parameters)
    (hcs2 : st.sound_speed_squared = d2q9_CS2) (n : ℕ)
    (hcons : (st.algorithm_values n).density
      = ∑ i ∈ Finset.range 9, (st.algorithm_values n).distributions i) :
    ∑ i ∈ Finset.range 9, collide_cell st τ n i = (st.algorithm_values n).density := by
  have hsum : ∑ i ∈ Finset.range 9, collide_cell st τ n i
      = ∑ i ∈ Finset.range 9, ((st.algorithm_values n).distributions i
          - ((st.algorithm_values n).distributions i
            - equilibrium_distributions 2 9 st.lattice_parameters st.sound_speed_squared
                (st.algorithm_values n).density (st.algorithm_values n).velocity_vector i)
              / τ) := by
    apply Finset.sum_congr rfl
    intro i hi
    rw [collide_cell]
    dsimp only
    rw [if_pos (Finset.mem_range.mp hi)]
  rw [hsum, Finset.sum_sub_distrib, ← Finset.sum_div, Finset.sum_sub_distrib, hlp, hcs2,
    d2q9_feq_sum, ← hcons, sub_self, zero_div, sub_zero]

theorem streaming_write_keeps_cd {N B : ℕ} (q : ℕ → ℕ) (s' : Lbgk N B) (i n : ℕ) :
    ((streaming_write q s' i).algorithm_values n).collision_distributions
      = (s'.algorithm_values n).collision_distributions := by
  rw [streaming_write]
  rcases hwt : s'.write_target q i with _ | ⟨ni, nj⟩
  · rfl
  · dsimp only
    rcases eq_or_ne n ni with h | h
    · subst h
      rw [Function.update_same]
    · rw [Function.update_noteq h]

theorem streaming_body_keeps_cd {N B : ℕ} (s : Lbgk N B) (q : ℕ → ℕ) (n : ℕ) :
    ((streaming_body s q).algorithm_values n).collision_distributions
      = (s.algorithm_values n).collision_distributions := by
  rw [streaming_body]
  split
  · rfl
  · exact foldl_keep (fun t => (t.algorithm_values n).collision_distributions)
      (fun _ => True) (streaming_write q) (List.range B) s (fun _ _ _ _ => trivial) trivial
      (fun t i _ _ => streaming_write_keeps_cd q t i n)

/-- Invariant tying an intermediate streaming state to the phase entry state. -/
def StreamInv {B : ℕ} (st s : Lbgk 2 B) : Prop :=
  SameShape st s ∧ ∀ n, (s.algorithm_values n).collision_distributions
    = (st.algorithm_values n).collision_distributions

theorem stream_inv_body {B : ℕ} {st : Lbgk 2 B} {s : Lbgk 2 B} (q : ℕ → ℕ)
    (hI : StreamInv st s) : StreamInv st (streaming_body s q) :=
  ⟨hI.1.trans (streaming_body_shape s q),
    fun n => by rw [streaming_body_keeps_cd]; exact hI.2 n⟩

theorem stream_inv_write {B : ℕ} {st : Lbgk 2 B} {s : Lbgk 2 B} (q : ℕ → ℕ) (j : ℕ)
    (hI : StreamInv st s) : StreamInv st (streaming_write q s j) :=
  ⟨hI.1.trans (streaming_write_shape q s j),
    fun n => by rw [streaming_write_keeps_cd]; exact hI.2 n⟩

/-- All-Periodic, no obstacles: the effect on slot `(index r, i)` of one inner
streaming write from source `q` along direction `j`. -/
theorem streaming_write_slot_cases (st : Lbgk 2 9)
    (hlp : st.lattice_parameters = d2q9_lattice_parameters)
    (hper : ∀ d s, d < 2 → s < 2 → st.boundary_schemes d s = BoundaryScheme.Periodic)
    (hobj : ∀ n, st.object n = false)
    {r : ℕ → ℕ} (hr : st.InBounds r) (hrn : Normalized 2 r) {i : ℕ}
    {q : ℕ → ℕ} (hqin : st.InBounds q) (hqn : Normalized 2 q) (j : ℕ)
    (t : Lbgk 2 9) (hI : StreamInv st t) :
    ((streaming_write q t j).algorithm_values (st.index r)).distributions i
        = (t.algorithm_values (st.index r)).distributions i ∨
      (q = st.unwrap_pos r i ∧ j = i ∧
        ((streaming_write q t j).algorithm_values (st.index r)).distributions i
          = (st.algorithm_values (st.index q)).collision_distributions i) := by
  have hpert : ∀ d s, d < 2 → s < 2 → t.boundary_schemes d s = BoundaryScheme.Periodic := by
    intro d s hd hs
    rw [← hI.1.2.2.2.1]
    exact hper d s hd hs
  have hobjt : ∀ n, t.object n = false := by
    intro n
    rw [← hI.1.2.2.2.2.2]
    exact hobj n
  have hwp : t.wrap_pos q j = st.wrap_pos q j := by
    funext d
    show (if d < 2 then wrap1 (t.size d) (q d) ((t.lattice_parameters j).lattice_vector d)
        else 0)
      = (if d < 2 then wrap1 (st.size d) (q d) ((st.lattice_parameters j).lattice_vector d)
        else 0)
    rw [← hI.1.2.2.1, ← hI.1.1]
  have hti : t.index (t.wrap_pos q j) = st.index (st.wrap_pos q j) := by
    rw [hwp]
    exact index_congr hI.1.2.2.1.symm _
  rw [streaming_write, write_target_periodic t hpert hobjt q j]
  dsimp only
  by_cases hcell : t.index (t.wrap_pos q j) = st.index r
  · by_cases hdir : j = i
    · right
      subst hdir
      have hwq : st.wrap_pos q j = r := by
        apply index_two_inj st ((wrap_pos_in_bounds st hqin j) 0 (by omega))
          (hr 0 (by omega)) (wrap_pos_norm st q j) hrn
        rw [← hti]
        exact hcell
      refine ⟨unwrap_unique st hlp hqin hqn j hwq, rfl, ?_⟩
      rw [hcell, Function.update_same]
      show Function.update ((t.algorithm_values (st.index r)).distributions) j
        ((t.algorithm_values (t.index q)).collision_distributions j) j = _
      rw [Function.update_same, index_congr hI.1.2.2.1.symm q, hI.2]
    · left
      rw [hcell, Function.update_same]
      show Function.update ((t.algorithm_values (st.index r)).distributions) j
        ((t.algorithm_values (t.index q)).collision_distributions j) i = _
      rw [Function.update_noteq (fun hc => hdir hc.symm)]
  · left
    rw [Function.update_noteq (fun hc => hcell hc.symm)]

theorem streaming_write_slot_hit (st : Lbgk 2 9)
    (hlp : st.lattice_parameters = d2q9_lattice_parameters)
    (hper : ∀ d s, d < 2 → s < 2 → st.boundary_schemes d s = BoundaryScheme.Periodic)
    (hobj : ∀ n, st.object n = false)
    {r : ℕ → ℕ} (hr : st.InBounds r) (hrn : Normalized 2 r) (i : ℕ)
    (t : Lbgk 2 9) (hI : StreamInv st t) :
    ((streaming_write (st.unwrap_pos r i) t i).algorithm_values (st.index r)).distributions i
      = (st.algorithm_values (st.index (st.unwrap_pos r i))).collision_distributions i := by
  have hpert : ∀ d s, d < 2 → s < 2 → t.boundary_schemes d s = BoundaryScheme.Periodic := by
    intro d s hd hs
    rw [← hI.1.2.2.2.1]
    exact hper d s hd hs
  have hobjt : ∀ n, t.object n = false := by
    intro n
    rw [← hI.1.2.2.2.2.2]
    exact hobj n
  have hwp : t.wrap_pos (st.unwrap_pos r i) i = st.wrap_pos (st.unwrap_pos r i) i := by
    funext d
    show (if d < 2 then wrap1 (t.size d) (st.unwrap_pos r i d)
        ((t.lattice_parameters i).lattice_vector d) else 0)
      = (if d < 2 then wrap1 (st.size d) (st.unwrap_pos r i d)
        ((st.lattice_parameters i).lattice_vector d) else 0)
    rw [← hI.1.2.2.1, ← hI.1.1]
  have hcell : t.index (t.wrap_pos (st.unwrap_pos r i) i) = st.index r := by
    rw [hwp, index_congr hI.1.2.2.1.symm, wrap_unwrap st hlp hr hrn i]
  rw [streaming_write, write_target_periodic t hpert hobjt (st.unwrap_pos r i) i]
  dsimp only
  rw [hcell, Function.update_same]
  show Function.update ((t.algorithm_values (st.index r)).distributions) i
    ((t.algorithm_values (t.index (st.unwrap_pos r i))).collision_distributions i) i = _
  rw [Function.update_same, index_congr hI.1.2.2.1.symm (st.unwrap_pos r i), hI.2]

theorem streaming_body_writes (st : Lbgk 2 9)
    (hlp : st.lattice_parameters = d2q9_lattice_parameters)
    (hper : ∀ d s, d < 2 → s < 2 → st.boundary_schemes d s = BoundaryScheme.Periodic)
    (hobj : ∀ n, st.object n = false)
    {r : ℕ → ℕ} (hr : st.InBounds r) (hrn : Normalized 2 r) {i : ℕ} (hi : i < 9)
    (s' : Lbgk 2 9) (hI : StreamInv st s') :
    ((streaming_body s' (st.unwrap_pos r i)).algorithm_values (st.index r)).distributions i
      = (st.algorithm_values (st.index (st.unwrap_pos r i))).collision_distributions i := by
  rw [streaming_body]
  have hobj' : s'.object (s'.index (st.unwrap_pos r i)) = false := by
    rw [← hI.1.2.2.2.2.2]
    exact hobj _
  rw [if_neg (by rw [hobj']; exact Bool.false_ne_true)]
  apply foldl_write (fun t => (t.algorithm_values (st.index r)).distributions i)
    (StreamInv st) (streaming_write (st.unwrap_pos r i))
    ((st.algorithm_values (st.index (st.unwrap_pos r i))).collision_distributions i)
    (List.range 9) s' i (List.mem_range.mpr hi)
  · intro t j _ hI2
    exact stream_inv_write _ j hI2
  · exact hI
  · intro t j _ hI2
    rcases streaming_write_slot_cases st hlp hper hobj hr hrn
        (unwrap_pos_in_bounds st hr i) (unwrap_pos_norm st r i) j t hI2 with h | ⟨_, _, h⟩
    · exact Or.inl h
    · exact Or.inr h
  · intro t hI2
    exact streaming_write_slot_hit st hlp hper hobj hr hrn i t hI2

/-- All-Periodic, no obstacles: after the streaming phase the population of
cell `r` in direction `i` is the post-collision population of the periodic
source cell of that direction. -/
theorem streaming_step_slot (st : Lbgk 2 9)
    (hlp : st.lattice_parameters = d2q9_lattice_parameters)
    (hper : ∀ d s, d < 2 → s < 2 → st.boundary_schemes d s = BoundaryScheme.Periodic)
    (hobj : ∀ n, st.object n = false)
    (hsize : ∀ d, d < 2 → 1 ≤ st.size d)
    (r : ℕ → ℕ) (hr : st.InBounds r) (hrn : Normalized 2 r) {i : ℕ} (hi : i < 9) :
    (st.streaming_step.algorithm_values (st.index r)).distributions i
      = (st.algorithm_values (st.index (st.unwrap_pos r i))).collision_distributions i := by
  apply foldl_write (fun t => (t.algorithm_values (st.index r)).distributions i)
    (StreamInv st) streaming_body
    ((st.algorithm_values (st.index (st.unwrap_pos r i))).collision_distributions i)
    _ st (st.unwrap_pos r i)
    (mem_full_sweep st hsize (unwrap_pos_in_bounds st hr i) (unwrap_pos_norm st r i))
  · intro s' q _ hI
    exact stream_inv_body q hI
  · exact ⟨SameShape.refl st, fun _ => rfl⟩
  · intro s' q hqmem hI
    have hqprops := sweep_list_sound (full_start_sweep_pos hsize) q hqmem
    have hqin : st.InBounds q := fun d hd => hqprops.1 d hd
    have hqn : Normalized 2 q := fun d hd => hqprops.2.1 d hd
    by_cases hq : q = st.unwrap_pos r i
    · subst hq
      exact Or.inr (streaming_body_writes st hlp hper hobj hr hrn hi s' hI)
    · left
      rw [streaming_body]
      have hobj' : s'.object (s'.index q) = false := by
        rw [← hI.1.2.2.2.2.2]
        exact hobj _
      rw [if_neg (by rw [hobj']; exact Bool.false_ne_true)]
      apply foldl_keep (fun t => (t.algorithm_values (st.index r)).distributions i)
        (StreamInv st) (streaming_write q) (List.range 9) s'
      · intro t j _ hI2
        exact stream_inv_write q j hI2
      · exact hI
      · intro t j _ hI2
        rcases streaming_write_slot_cases st hlp hper hobj hr hrn hqin hqn j t hI2 with
          h | ⟨hq2, _, _⟩
        · exact h
        · exact absurd hq2 hq
  · intro s' hI
    exact streaming_body_writes st hlp hper hobj hr hrn hi s' hI

theorem derived_body_keeps {N B : ℕ} (s : Lbgk N B) (q : ℕ → ℕ) (idx : ℕ) :
    ((derived_body s q).algorithm_values idx).distributions
      = (s.algorithm_values idx).distributions := by
  rw [derived_body]
  split
  · rfl
  · dsimp only
    rcases eq_or_ne idx (s.index q) with h | h
    · subst h
      rw [Function.update_same]
    · rw [Function.update_noteq h]

/-- Invariant tying an intermediate derived-phase state to the phase entry
state. -/
def DerivedInv {B : ℕ} (st s : Lbgk 2 B) : Prop :=
  SameShape st s ∧ ∀ n, (s.algorithm_values n).distributions
    = (st.algorithm_values n).distributions

theorem derived_body_density {B : ℕ} (st : Lbgk 2 B) {s : Lbgk 2 B} (q : ℕ → ℕ)
    (hobj : ∀ n, st.object n = false) (hI : DerivedInv st s) :
    ((derived_body s q).algorithm_values (st.index q)).density
        = ∑ i ∈ Finset.range B, (st.algorithm_values (st.index q)).distributions i ∧
      ∀ m, m ≠ st.index q → (derived_body s q).algorithm_values m = s.algorithm_values m := by
  have hidx : s.index q = st.index q := index_congr hI.1.2.2.1.symm q
  have hob : s.object (s.index q) = false := by
    rw [← hI.1.2.2.2.2.2]
    exact hobj _
  rw [derived_body]
  rw [if_neg (by rw [hob]; exact Bool.false_ne_true)]
  dsimp only
  constructor
  · rw [hidx, Function.update_same]
    show (∑ i ∈ Finset.range B, (s.algorithm_values (st.index q)).distributions i) = _
    apply Finset.sum_congr rfl
    intro i _
    rw [hI.2]
  · intro m hm
    rw [hidx, Function.update_noteq hm]

/-- After the derived phase the density of an in-bounds fluid cell equals the
sum of its populations at phase entry. -/
theorem derived_density {B : ℕ} (st : Lbgk 2 B)
    (hsize : ∀ d, d < 2 → 1 ≤ st.size d) (hobj : ∀ n, st.object n = false)
    (r : ℕ → ℕ) (hr : st.InBounds r) (hrn : Normalized 2 r) :
    (st.calculate_derived.algorithm_values (st.index r)).density
      = ∑ i ∈ Finset.range B, (st.algorithm_values (st.index r)).distributions i := by
  apply foldl_write (fun t => (t.algorithm_values (st.index r)).density)
    (DerivedInv st) derived_body
    (∑ i ∈ Finset.range B, (st.algorithm_values (st.index r)).distributions i)
    _ st r (mem_full_sweep st hsize hr hrn)
  · intro s' q _ hI
    refine ⟨hI.1.trans (derived_body_shape s' q), fun n => ?_⟩
    rw [derived_body_keeps s' q n]
    exact hI.2 n
  · exact ⟨SameShape.refl st, fun _ => rfl⟩
  · intro s' q _ hI
    by_cases hc : st.index q = st.index r
    · right
      have hdd := (derived_body_density st q hobj hI).1
      rw [hc] at hdd
      exact hdd
    · left
      exact congrArg AlgorithmValues.density
        ((derived_body_density st q hobj hI).2 _ (fun hx => hc hx.symm))
  · intro s' hI
    exact (derived_body_density st r hobj hI).1

theorem calculate_derived_keeps {N B : ℕ} (st : Lbgk N B) (idx : ℕ) :
    (st.calculate_derived.algorithm_values idx).distributions
      = (st.algorithm_values idx).distributions :=
  foldl_keep (fun t => (t.algorithm_values idx).distributions) (fun _ => True)
    derived_body _ st (fun _ _ _ _ => trivial) trivial
    (fun s' q _ _ => derived_body_keeps s' q idx)

/-- With all-Periodic sides the inflow/outflow maintenance phase is the
identity. -/
theorem update_io_periodic {B : ℕ} (st : Lbgk 2 B)
    (hper : ∀ d s, d < 2 → s < 2 → st.boundary_schemes d s = BoundaryScheme.Periodic) :
    st.update_inflows_and_outflows = st := by
  have hps : ∀ (s : Lbgk 2 B) (i side : ℕ), i < 2 → side < 2 →
      s.boundary_schemes = st.boundary_schemes → s.process_side i side = s := by
    intro s i side hiN hside hsch
    rw [Lbgk.process_side, hsch, hper i side hiN hside]
  rw [Lbgk.update_inflows_and_outflows]
  rw [show List.range 2 = [0, 1] from rfl]
  rw [List.foldl_cons, List.foldl_cons, List.foldl_nil]
  rw [hps st 0 0 (by omega) (by omega) rfl,
    hps st 0 1 (by omega) (by omega) rfl,
    hps st 1 0 (by omega) (by omega) rfl,
    hps st 1 1 (by omega) (by omega) rfl]

/-- Hypothesis bundle for mass conservation: a D2Q9 state with all-Periodic
sides, no obstacles, nonempty grid, and density consistent with the stored
populations. -/
def PeriodicFluid (st : Lbgk 2 9) : Prop :=
  st.lattice_parameters = d2q9_lattice_parameters ∧
  st.sound_speed_squared = d2q9_CS2 ∧
  (∀ d s, d < 2 → s < 2 → st.boundary_schemes d s = BoundaryScheme.Periodic) ∧
  (∀ n, st.object n = false) ∧
  (∀ d, d < 2 → 1 ≤ st.size d) ∧
  (∀ n, n < st.size 0 * st.size 1 →
    (st.algorithm_values n).density
      = ∑ i ∈ Finset.range 9, (st.algorithm_values n).distributions i)

theorem iterate_cell_density (st : Lbgk 2 9) (τ : ℚ) (h : PeriodicFluid st)
    {n : ℕ} (hn : n < st.size 0 * st.size 1) :
    ((st.iterate τ).algorithm_values n).density
        = ∑ i ∈ Finset.range 9,
          collide_cell st τ (st.index (st.unwrap_pos (posOf (st.size 0) n) i)) i ∧
      ((st.iterate τ).algorithm_values n).density
        = ∑ i ∈ Finset.range 9, ((st.iterate τ).algorithm_values n).distributions i := by
  obtain ⟨hlp, hcs2, hper, hobj, hsize, hcons⟩ := h
  have sh1 := collision_step_shape st τ
  have sh2 := sh1.trans (streaming_step_shape (st.collision_step τ))
  have sh3 := sh2.trans (calculate_derived_shape ((st.collision_step τ).streaming_step))
  have hrin : st.InBounds (posOf (st.size 0) n) := posOf_in_bounds st hn
  have hrn : Normalized 2 (posOf (st.size 0) n) := posOf_norm _ _
  have hio : ((st.collision_step τ).streaming_step.calculate_derived).update_inflows_and_outflows
      = (st.collision_step τ).streaming_step.calculate_derived :=
    update_io_periodic _ (by intro d s hd hs; rw [← sh3.2.2.2.1]; exact hper d s hd hs)
  have hit : st.iterate τ = (st.collision_step τ).streaming_step.calculate_derived := by
    rw [Lbgk.iterate, hio]
  have hd1 : (((st.collision_step τ).streaming_step.calculate_derived).algorithm_values
        n).density
      = ∑ i ∈ Finset.range 9,
        (((st.collision_step τ).streaming_step).algorithm_values n).distributions i := by
    have hdd := derived_density ((st.collision_step τ).streaming_step)
      (by intro d hd; rw [← sh2.2.2.1]; exact hsize d hd)
      (by intro m; rw [← sh2.2.2.2.2.2]; exact hobj m)
      (posOf (st.size 0) n)
      (by intro d hd; rw [← sh2.2.2.1]; exact hrin d hd) hrn
    rwa [index_congr sh2.2.2.1.symm (posOf (st.size 0) n), index_posOf] at hdd
  have hd2 : ∀ i, i < 9 →
      (((st.collision_step τ).streaming_step).algorithm_values n).distributions i
        = collide_cell st τ (st.index (st.unwrap_pos (posOf (st.size 0) n) i)) i := by
    intro i hi
    have hs1 := streaming_step_slot (st.collision_step τ)
      (by rw [← sh1.1]; exact hlp)
      (by intro d s hd hs; rw [← sh1.2.2.2.1]; exact hper d s hd hs)
      (by intro m; rw [← sh1.2.2.2.2.2]; exact hobj m)
      (by intro d hd; rw [← sh1.2.2.1]; exact hsize d hd)
      (posOf (st.size 0) n)
      (by intro d hd; rw [← sh1.2.2.1]; exact hrin d hd) hrn hi
    have hup : (st.collision_step τ).unwrap_pos (posOf (st.size 0) n) i
        = st.unwrap_pos (posOf (st.size 0) n) i := by
      funext d
      show (if d < 2 then wrap1 ((st.collision_step τ).size d) (posOf (st.size 0) n d)
          (-(((st.collision_step τ).lattice_parameters i).lattice_vector d)) else 0)
        = (if d < 2 then wrap1 (st.size d) (posOf (st.size 0) n d)
          (-((st.lattice_parameters i).lattice_vector d)) else 0)
      rw [← sh1.2.2.1, ← sh1.1]
    rw [index_congr sh1.2.2.1.symm (posOf (st.size 0) n), index_posOf, hup,
      index_congr sh1.2.2.1.symm (st.unwrap_pos (posOf (st.size 0) n) i)] at hs1
    rw [collision_cd_char st τ hsize (unwrap_pos_in_bounds st hrin i)
      (unwrap_pos_norm st _ i) (hobj _)] at hs1
    exact hs1
  constructor
  · rw [hit, hd1]
    exact Finset.sum_congr rfl (fun i hi => hd2 i (Finset.mem_range.mp hi))
  · rw [hit, hd1]
    apply Finset.sum_congr rfl
    intro i hi
    exact (congrFun (calculate_derived_keeps ((st.collision_step τ).streaming_step) n) i).symm

theorem iterate_mass_step (st : Lbgk 2 9) (τ : ℚ) (h : PeriodicFluid st) :
    totalDensity (st.iterate τ) = totalDensity st ∧ PeriodicFluid (st.iterate τ) := by
  obtain ⟨hlp, hcs2, hper, hobj, hsize, hcons⟩ := h
  have sh := iterate_shape st τ
  have hsz : st.size = (st.iterate τ).size := sh.2.2.1
  constructor
  · rw [totalDensity, totalDensity, ← hsz]
    have hcell : ∀ n ∈ Finset.range (st.size 0 * st.size 1),
        ((st.iterate τ).algorithm_values n).density
          = ∑ i ∈ Finset.range 9,
            collide_cell st τ (st.index (st.unwrap_pos (posOf (st.size 0) n) i)) i := by
      intro n hn
      exact (iterate_cell_density st τ ⟨hlp, hcs2, hper, hobj, hsize, hcons⟩
        (Finset.mem_range.mp hn)).1
    rw [Finset.sum_congr rfl hcell, Finset.sum_comm]
    have hbij : ∀ i ∈ Finset.range 9,
        (∑ n ∈ Finset.range (st.size 0 * st.size 1),
          collide_cell st τ (st.index (st.unwrap_pos (posOf (st.size 0) n) i)) i)
          = ∑ n ∈ Finset.range (st.size 0 * st.size 1), collide_cell st τ n i := by
      intro i _
      apply Finset.sum_bij' (fun n _ => st.index (st.unwrap_pos (posOf (st.size 0) n) i))
        (fun n _ => st.index (st.wrap_pos (posOf (st.size 0) n) i))
      · intro a ha
        exact Finset.mem_range.mpr (index_lt st
          (unwrap_pos_in_bounds st (posOf_in_bounds st (Finset.mem_range.mp ha)) i))
      · intro a ha
        exact Finset.mem_range.mpr (index_lt st
          (wrap_pos_in_bounds st (posOf_in_bounds st (Finset.mem_range.mp ha)) i))
      · intro a ha
        have hain := posOf_in_bounds st (Finset.mem_range.mp ha)
        rw [posOf_index st (unwrap_pos_in_bounds st hain i) (unwrap_pos_norm st _ i),
          wrap_unwrap st hlp hain (posOf_norm _ _) i]
        exact index_posOf st a
      · intro a ha
        have hain := posOf_in_bounds st (Finset.mem_range.mp ha)
        rw [posOf_index st (wrap_pos_in_bounds st hain i) (wrap_pos_norm st _ i),
          ← unwrap_unique st hlp hain (posOf_norm _ _) i rfl]
        exact index_posOf st a
      · intro a ha
        rfl
    rw [Finset.sum_congr rfl hbij, Finset.sum_comm]
    apply Finset.sum_congr rfl
    intro n hn
    exact collide_cell_sum st τ hlp hcs2 n (hcons n (Finset.mem_range.mp hn))
  · refine ⟨by rw [← sh.1]; exact hlp, by rw [← sh.2.1]; exact hcs2,
      by intro d s hd hs; rw [← sh.2.2.2.1]; exact hper d s hd hs,
      by intro m; rw [← sh.2.2.2.2.2]; exact hobj m,
      by intro d hd; rw [← hsz]; exact hsize d hd, ?_⟩
    intro n hn
    rw [← hsz] at hn
    exact (iterate_cell_density st τ ⟨hlp, hcs2, hper, hobj, hsize, hcons⟩ hn).2

/-- Claim C3: with every boundary side of every dimension Periodic and the
obstacle mask false everywhere, each call to `iterate` preserves the sum of the
stored densities over all cells exactly (rational arithmetic), so the total is
invariant across any number of `iterate` calls from the constructor state. -/
theorem mass_conservation (size : ℕ → ℕ) (ρ0 : ℚ) (u0 : ℕ → ℚ) (τs : List ℚ)
    (hsize : ∀ d, d < 2 → 1 ≤ size d) :
    totalDensity ((new_d2q9 size (fun _ _ => BoundaryScheme.Periodic) ρ0 u0).iterate_list τs)
      = totalDensity (new_d2q9 size (fun _ _ => BoundaryScheme.Periodic) ρ0 u0) := by
  have hpf : PeriodicFluid (new_d2q9 size (fun _ _ => BoundaryScheme.Periodic) ρ0 u0) := by
    refine ⟨rfl, rfl, fun d s _ _ => rfl, fun n => rfl, fun d hd => hsize d hd, ?_⟩
    intro n hn
    exact (d2q9_feq_sum ρ0 u0).symm
  have haux : ∀ (ts : List ℚ) (st : Lbgk 2 9), PeriodicFluid st →
      totalDensity (st.iterate_list ts) = totalDensity st := by
    intro ts
    induction ts with
    | nil => intro st _; rfl
    | cons τ ts2 ih =>
      intro st hst
      rw [Lbgk.iterate_list, List.foldl_cons]
      rw [show List.foldl (fun s τ2 => s.iterate τ2) (st.iterate τ) ts2
        = (st.iterate τ).iterate_list ts2 from rfl]
      have hstep := iterate_mass_step st τ hst
      rw [ih (st.iterate τ) hstep.2, hstep.1]
  exact haux τs _ hpf

theorem mass_conservation_witness :
    totalDensity ((new_d2q9 (fun _ => 2) (fun _ _ => BoundaryScheme.Periodic) 1
        (fun _ => 0)).iterate_list [1])
      = totalDensity (new_d2q9 (fun _ => 2) (fun _ _ => BoundaryScheme.Periodic) 1
        (fun _ => 0)) :=
  mass_conservation (fun _ => 2) 1 (fun _ => 0) [1] (fun d hd => by show (1:ℕ) ≤ 2; omega)
